import Mathlib

/-!
Verification of the FileSorterPro classifier and mover (src/filesorter.py).

The Python source is shallowly embedded as follows.

* File and folder names are Lean strings.  The pathlib derived attributes
  stem and suffix of a name are computed by pySplitExt, following the
  pathlib rule: with i the last index of a dot in the name, the suffix is
  the slice from i when 0 < i < length - 1, and empty otherwise.
* Python str.lower is embedded for each character by pyCharLower, which
  lowers the ASCII uppercase range exactly as CPython does on ASCII data.
* Python dicts are embedded as association lists.  dget is dict.get
  (first matching key wins); dSet is dict assignment, which updates an
  existing key in place and appends a fresh key at the end, matching the
  insertion-order semantics of Python dicts.  map_extensions_to_folder
  builds the extension index by prepending, so that a later write to the
  same key shadows an earlier one (last write wins), as in the source.
* Fallible Python code is embedded in Except String.  In particular the
  statement file_counts[quoted Others] += 1 raises a KeyError when the
  key is absent, and max over an empty dict raises a ValueError; both are
  modelled as Except.error.
* The float comparison count / total > 0.5 of the source is embedded as
  the exact integer comparison 2 * count > total, which agrees with the
  IEEE double comparison for every count and total bounded by the length
  of a directory listing.
-/

namespace FileSorter

/-- Index of the last dot in a list of characters, if any. -/
def lastDotIndex : List Char → Option Nat
  | [] => none
  | c :: cs =>
    match lastDotIndex cs with
    | some i => some (i + 1)
    | none => if c = '.' then some 0 else none

/-- Split a name into (stem, suffix) following the pathlib rule: with i the
last index of a dot, the suffix is the slice from i when 0 < i < length - 1,
and empty otherwise. -/
def pySplitExt (l : List Char) : List Char × List Char :=
  match lastDotIndex l with
  | some i => if 0 < i ∧ i + 1 < l.length then (l.take i, l.drop i) else (l, [])
  | none => (l, [])

/-- Embeds the pathlib attribute stem of a file name. -/
def pyStem (name : String) : String := ⟨(pySplitExt name.data).1⟩

/-- Embeds the pathlib attribute suffix of a file name (with leading dot). -/
def pySuffix (name : String) : String := ⟨(pySplitExt name.data).2⟩

/-- Embeds str.lower for a single ASCII character, as CPython does on the
uppercase ASCII range. -/
def pyCharLower (c : Char) : Char :=
  if 65 ≤ c.toNat ∧ c.toNat ≤ 90 then Char.ofNat (c.toNat + 32) else c

/-- The key used for the extension lookup in the source, line 34 and line 79:
suffix with the leading dot removed, lowercased. -/
def extKey (name : String) : String :=
  ⟨((pySplitExt name.data).2.drop 1).map pyCharLower⟩

/-- Embeds str.startswith: the pattern is a prefix of the string. -/
def pyStartsWith (s pre : String) : Bool := pre.data.isPrefixOf s.data

/-- Embeds dict.get on an association list: the first matching key wins. -/
def dget {α : Type} (m : List (String × α)) (k : String) : Option α :=
  (m.find? (fun p => p.1 == k)).map Prod.snd

/-- Embeds dict assignment: an existing key is updated in place, a fresh key
is appended at the end, matching Python dict insertion order. -/
def dSet {α : Type} : List (String × α) → String → α → List (String × α)
  | [], k, v => [(k, v)]
  | p :: rest, k, v => if p.1 == k then (k, v) :: rest else p :: dSet rest k v

/-- Embeds map_extensions_to_folder, source lines 25 to 30.  Prepending makes
a later write to the same extension shadow an earlier one, which is the
last-write-wins behaviour of the Python dict being built. -/
def map_extensions_to_folder (fn : List (String × List String)) : List (String × String) :=
  fn.foldl (fun acc p => p.2.foldl (fun acc2 e => (e, p.1) :: acc2) acc) []

/-- Embeds determine_target_folder, source lines 32 to 40: the rules are
scanned in table order; the first category one of whose patterns is a prefix
of the stem wins; otherwise the extension index is consulted with the
default as fallback. -/
def determine_target_folder (fname : String) (rules : List (String × List String))
    (emap : List (String × String)) (dflt : String) : String :=
  match rules with
  | [] => (dget emap (extKey fname)).getD dflt
  | (folder, patterns) :: rest =>
    if patterns.any (fun pat => pyStartsWith (pyStem fname) pat) then folder
    else determine_target_folder fname rest emap dflt

/-- Embeds combine_categories, source lines 68 to 70.  The Python set union
is embedded as the deduplicated list of keys; only membership in it is ever
observed, except for the iteration order of the zero-initialised counts
dict, which is shown not to affect the classification result. -/
def combine_categories (fn rules : List (String × List String)) : List String :=
  (fn.map Prod.fst ++ rules.map Prod.fst).dedup

/-- A direct child of a folder as seen by iterdir: a name and whether the
entry is a file. -/
structure Item where
  name : String
  isFile : Bool

/-- One iteration of the counting loop of classify_folder_by_content, source
lines 76 to 84.  Note that the source increments file_counts at the real key
Others when the extension is unmapped (or maps to a falsy category), raising
a KeyError when that key is absent, while a mapped truthy category is
incremented through dict.get and so never raises. -/
def classifyStep (emap : List (String × String)) (st : List (String × Nat) × Nat)
    (it : Item) : Except String (List (String × Nat) × Nat) :=
  if it.isFile then
    let total := st.2 + 1
    match dget emap (extKey it.name) with
    | some c =>
      if c = "" then
        match dget st.1 "Others" with
        | some n => Except.ok (dSet st.1 "Others" (n + 1), total)
        | none => Except.error "KeyError"
      else Except.ok (dSet st.1 c ((dget st.1 c).getD 0 + 1), total)
    | none =>
      match dget st.1 "Others" with
      | some n => Except.ok (dSet st.1 "Others" (n + 1), total)
      | none => Except.error "KeyError"
  else Except.ok st

/-- The counts dict and file total built by the loop of
classify_folder_by_content, source lines 73 to 84. -/
def classifyCounts (items : List Item) (emap : List (String × String))
    (all_categories : List String) : Except String (List (String × Nat) × Nat) :=
  items.foldlM (classifyStep emap) (all_categories.map (fun c => (c, 0)), 0)

/-- Embeds Python max over a nonempty sequence by the key fun x => x.2:
the first element attaining the maximum is returned. -/
def pyMax2 (a : String × Nat) : List (String × Nat) → String × Nat
  | [] => a
  | x :: xs => pyMax2 (if x.2 > a.2 then x else a) xs

/-- Python max over dict items with key fun x => x.2; raises on empty. -/
def pyMaxBySnd : List (String × Nat) → Option (String × Nat)
  | [] => none
  | x :: xs => some (pyMax2 x xs)

/-- Embeds classify_folder_by_content, source lines 72 to 93, on the list of
direct children of the folder.  The comparison count / total > 0.5 is
embedded exactly as 2 * count > total. -/
def classify_folder_by_content (items : List Item) (emap : List (String × String))
    (all_categories : List String) : Except String String :=
  match classifyCounts items emap all_categories with
  | Except.error e => Except.error e
  | Except.ok st =>
    if st.2 = 0 then Except.ok "Others"
    else
      match pyMaxBySnd st.1 with
      | some m => if 2 * m.2 > st.2 then Except.ok m.1 else Except.ok "Others"
      | none => Except.error "ValueError"

/-- The categories to which at least one direct child file of the folder is
mapped by the extension index. -/
def specPresent (items : List Item) (emap : List (String × String)) : List String :=
  ((items.filter (fun it => it.isFile)).filterMap
    (fun f => dget emap (extKey f.name))).dedup

/-- Whether a category holds a strict majority: twice the number of direct
child files mapped to it by the extension index exceeds the total number of
direct child files, unclassified ones included. -/
def specMajor (items : List Item) (emap : List (String × String)) (c : String) : Bool :=
  2 * (items.filter (fun it => it.isFile)).countP
      (fun f => dget emap (extKey f.name) == some c) >
    (items.filter (fun it => it.isFile)).length

/-- Modelled from the words of the spec, for comparison with the source
function: a file is classified by the extension-index entry of its
extension key; unmapped files belong to no category; the folder is
classified to the category whose count of direct child files is a strict
majority of the total number of direct child files, and to Others when the
folder has no direct child files or no category has a strict majority. -/
def spec_classify_folder (items : List Item) (emap : List (String × String)) : String :=
  match (specPresent items emap).find? (specMajor items emap) with
  | some c => c
  | none => "Others"

/-!
The filesystem model.  A directory entry is a file or a directory with its
own listing; the working directory is a listing.  The only mutations the
source performs are mkdir with exist_ok at the top level and Path.rename of
a top-level entry into a category directory, so those are the modelled
operations.  Injected rename failures (permissions and similar) are
modelled by a boolean oracle on the source name and target category; a
Python exception is an Except.error carrying the state at the raise.
-/

/-- A filesystem node: a file, or a directory with its direct children. -/
inductive Node where
  | file : Node
  | dir : List (String × Node) → Node

/-- A directory listing: the direct children of the working directory. -/
abbrev FS := List (String × Node)

/-- Looks up a direct child by name. -/
def lookupChild (es : FS) (n : String) : Option Node :=
  (es.find? (fun p => p.1 == n)).map Prod.snd

/-- Follows a path of names from a listing. -/
def getNode : List String → FS → Option Node
  | [], es => some (Node.dir es)
  | n :: rest, es =>
    match lookupChild es n with
    | none => none
    | some nd =>
      match rest, nd with
      | [], _ => some nd
      | _ :: _, Node.file => none
      | _ :: _, Node.dir cs => getNode rest cs

/-- Embeds Path.exists on a path below the working directory. -/
def pathExists (p : List String) (es : FS) : Bool := (getNode p es).isSome

/-- Embeds Path.mkdir with exist_ok at the top level: no-op on an existing
directory, FileExistsError on an existing file, else a new empty directory
is appended. -/
def mkdirRoot (es : FS) (n : String) : Except Unit FS :=
  match lookupChild es n with
  | some (Node.dir _) => Except.ok es
  | some Node.file => Except.error ()
  | none => Except.ok (es ++ [(n, Node.dir [])])

/-- Removes the direct children with the given name. -/
def eraseName (es : FS) (n : String) : FS := es.filter (fun p => ¬ p.1 = n)

/-- Appends a child to the listing of a named directory. -/
def addChild (nd : Node) (n : String) (x : Node) : Node :=
  match nd with
  | Node.dir cs => Node.dir (cs ++ [(n, x)])
  | Node.file => Node.file

/-- Appends an entry to the listing of the top-level directory cat. -/
def addIntoDir (es : FS) (cat n : String) (x : Node) : FS :=
  es.map (fun p => if p.1 = cat then (p.1, addChild p.2 n x) else p)

/-- Embeds Path.rename of the top-level entry src to cat slash src: the
entry is detached and appended to the listing of cat.  Raises when src is
missing or cat is not a directory. -/
def renameIntoCat (es : FS) (src cat : String) : Except Unit FS :=
  match lookupChild es src with
  | none => Except.error ()
  | some nd =>
    match lookupChild (eraseName es src) cat with
    | some (Node.dir _) => Except.ok (addIntoDir (eraseName es src) cat src nd)
    | _ => Except.error ()

/-- The name has a directory entry at the top level of the listing. -/
def IsRootDir (es : FS) (c : String) : Prop :=
  ∃ cs, lookupChild es c = some (Node.dir cs)

/-- The structured log stream: one constructor per logging call site of the
source, carrying the names the message interpolates. -/
inductive LogEntry where
  | movedFile (name cat : String)
  | fileMoveFailed (name cat : String)
  | fileExistsSkip (name : String)
  | skipCategoryFolder (name : String)
  | movedFolder (name cat : String)
  | folderExistsSkip (name : String)
  | folderCorrect (name cat : String)
  | organized
  | topLevelFail

/-- Severity info, source call sites logging.info. -/
def LogEntry.isInfo : LogEntry → Bool
  | LogEntry.movedFile _ _ => true
  | LogEntry.skipCategoryFolder _ => true
  | LogEntry.movedFolder _ _ => true
  | LogEntry.folderCorrect _ _ => true
  | LogEntry.organized => true
  | _ => false

/-- Whether the entry reports that a filesystem move was performed. -/
def LogEntry.isMove : LogEntry → Bool
  | LogEntry.movedFile _ _ => true
  | LogEntry.movedFolder _ _ => true
  | _ => false

/-- The names of the direct child files, as get_files_and_folders collects
them, source line 9. -/
def rootFiles (es : FS) : List String :=
  es.filterMap (fun p => match p.2 with | Node.file => some p.1 | Node.dir _ => none)

/-- The names of the direct child directories, source line 10. -/
def rootDirs (es : FS) : List String :=
  es.filterMap (fun p => match p.2 with | Node.dir _ => some p.1 | Node.file => none)

/-- Embeds get_files_and_folders, source lines 7 to 11. -/
def get_files_and_folders (es : FS) : List String × List String :=
  (rootFiles es, rootDirs es)

/-- Embeds create_folders, source lines 13 to 22: mkdir with exist_ok for
every extension category key, then for every filename rule key. -/
def create_folders (es : FS) (fn rules : List (String × List String)) : Except Unit FS :=
  (fn.map Prod.fst ++ rules.map Prod.fst).foldlM mkdirRoot es

/-- The body of the loop of move_files, source lines 43 to 54: collision
check, then a rename whose failure is caught and logged, the loop always
continuing. -/
def moveFileStep (emap : List (String × String)) (rules : List (String × List String))
    (fails : String → String → Bool) (st : FS × List LogEntry) (fname : String) :
    FS × List LogEntry :=
  let target := determine_target_folder fname rules emap "Others"
  if pathExists [target, fname] st.1 then (st.1, st.2 ++ [LogEntry.fileExistsSkip fname])
  else if fails fname target then (st.1, st.2 ++ [LogEntry.fileMoveFailed fname target])
  else
    match renameIntoCat st.1 fname target with
    | Except.ok fs2 => (fs2, st.2 ++ [LogEntry.movedFile fname target])
    | Except.error _ => (st.1, st.2 ++ [LogEntry.fileMoveFailed fname target])

/-- Embeds move_files, source lines 42 to 54. -/
def move_files (files : List String) (emap : List (String × String))
    (rules : List (String × List String)) (fails : String → String → Bool) (fs : FS) :
    FS × List LogEntry :=
  files.foldl (moveFileStep emap rules fails) (fs, [])

/-- The direct children of a top-level folder as Items, as iterdir sees
them; none when the name is no longer a top-level directory, in which case
iterdir raises. -/
def childItems (es : FS) (fname : String) : Option (List Item) :=
  match lookupChild es fname with
  | some (Node.dir cs) =>
    some (cs.map (fun p => ⟨p.1, match p.2 with | Node.file => true | Node.dir _ => false⟩))
  | _ => none

/-- The body of the loop of move_folders_based_on_content, source lines 98
to 121.  Category-named folders are skipped; otherwise the folder is
classified and moved unless already placed.  The rename on line 116 is not
wrapped in try, so its failure propagates as Except.error, carrying the
state at the raise; nothing is logged for it here. -/
def moveFolderStep (rootName : String) (cats : List String) (emap : List (String × String))
    (fails : String → String → Bool) (st : FS × List LogEntry) (fname : String) :
    Except (FS × List LogEntry) (FS × List LogEntry) :=
  if fname ∈ cats then Except.ok (st.1, st.2 ++ [LogEntry.skipCategoryFolder fname])
  else
    match childItems st.1 fname with
    | none => Except.error st
    | some items =>
      match classify_folder_by_content items emap cats with
      | Except.error _ => Except.error st
      | Except.ok cls =>
        if rootName ≠ cls then
          match mkdirRoot st.1 cls with
          | Except.error _ => Except.error st
          | Except.ok fs1 =>
            if pathExists [cls, fname] fs1 then
              Except.ok (fs1, st.2 ++ [LogEntry.folderExistsSkip fname])
            else if fails fname cls then Except.error (fs1, st.2)
            else
              match renameIntoCat fs1 fname cls with
              | Except.ok fs2 => Except.ok (fs2, st.2 ++ [LogEntry.movedFolder fname cls])
              | Except.error _ => Except.error (fs1, st.2)
        else Except.ok (st.1, st.2 ++ [LogEntry.folderCorrect fname cls])

/-- The filesystem and log state carried by a possibly raising loop: the
state at the raise when the loop raised, the final state otherwise. -/
def exceptState : Except (FS × List LogEntry) (FS × List LogEntry) → FS × List LogEntry
  | Except.ok st => st
  | Except.error st => st

/-- Embeds move_folders_based_on_content, source lines 95 to 121. -/
def move_folders_based_on_content (folders : List String) (rootName : String)
    (fn rules : List (String × List String)) (emap : List (String × String))
    (fails : String → String → Bool) (fs : FS) :
    Except (FS × List LogEntry) (FS × List LogEntry) :=
  folders.foldlM (moveFolderStep rootName (combine_categories fn rules) emap fails) (fs, [])

/-- Embeds the orchestration of the main block, source lines 150 to 159:
enumerate, create category folders, build the extension index, move files,
move folders by content; the top-level try catches anything that
propagates, logs it, and the run ends. -/
def runSorter (fs : FS) (rootName : String) (fn rules : List (String × List String))
    (fails : String → String → Bool) : FS × List LogEntry :=
  let files := (get_files_and_folders fs).1
  let folders := (get_files_and_folders fs).2
  match create_folders fs fn rules with
  | Except.error _ => (fs, [LogEntry.topLevelFail])
  | Except.ok fs1 =>
    let emap := map_extensions_to_folder fn
    let res := move_files files emap rules fails fs1
    match move_folders_based_on_content folders rootName fn rules emap fails res.1 with
    | Except.ok st => (st.1, res.2 ++ st.2 ++ [LogEntry.organized])
    | Except.error st => (st.1, res.2 ++ st.2 ++ [LogEntry.topLevelFail])

/-- The hard-coded rule table of the main block, source lines 130 to 144,
with each Python set literal transcribed in its written order (only
membership in a set is observable in the embedding). -/
def folder_names : List (String × List String) :=
  [("Audio", ["aif", "cda", "mid", "midi", "mp3", "mpa", "ogg", "wav", "wma", "m4a"]),
   ("Compressed", ["7z", "deb", "pkg", "rar", "rpm", "tar.gz", "z", "zip", "gz"]),
   ("Code", ["htm", "js", "jsp", "html", "ipynb", "py", "java", "css", "php", "json"]),
   ("Documents", ["ods", "odt", "rtf", "ppt", "pptx", "pdf", "xls", "xlsx", "doc", "docx",
                  "txt", "tex", "epub"]),
   ("Images", ["bmp", "gif", "ico", "jpeg", "jpg", "png", "jfif", "svg", "tif", "tiff",
               "webp", "heic"]),
   ("Softwares", ["apk", "bat", "bin", "exe", "jar", "msi", "iso"]),
   ("Videos", ["3gp", "avi", "flv", "h264", "mkv", "mov", "mp4", "mpg", "mpeg", "wmv", "m4v"]),
   ("Torrents", ["torrent"]),
   ("WPbackup", ["wpress", "sql"]),
   ("Data", ["csv", "xml"]),
   ("Maps", ["gpx"]),
   ("Graphics", ["psd", "stl", "dwg"]),
   ("Others", ["NONE"])]

/-- The filename sorting rules of the main block, source lines 145 to 148. -/
def filename_sorting_rules : List (String × List String) :=
  [("Photos", ["IMG_"])]

/-- Whether a filename rule entry matches the stem of a file name: some
pattern of the entry is a prefix of the stem, source line 37. -/
def ruleMatches (fname : String) (r : String × List String) : Bool :=
  r.2.any (fun pat => pyStartsWith (pyStem fname) pat)

/-- The truthy category the counting loop of classify_folder_by_content
sees for a file name: the extension-index entry when it is present and not
the empty string, and none otherwise (the source tests the looked-up value
for truthiness, so the empty string behaves like an absent entry). -/
def codeCat (emap : List (String × String)) (name : String) : Option String :=
  match dget emap (extKey name) with
  | some c => if c = "" then none else some c
  | none => none

/-- The key of the counts dict the loop increments for a file name: the
truthy looked-up category, or the literal key Others. -/
def bucketOf (emap : List (String × String)) (name : String) : String :=
  (codeCat emap name).getD "Others"

/-- How many of the items are files whose increment goes to the key k. -/
def bcount (emap : List (String × String)) (items : List Item) (k : String) : Nat :=
  items.countP (fun it => it.isFile && (bucketOf emap it.name == k))

/-- How many of the items are files. -/
def fcount (items : List Item) : Nat := items.countP (fun it => it.isFile)

/-- The invariant of the counting loop of classify_folder_by_content after
the items in done have been processed: the keys of the counts dict are
distinct and include Others, every entry holds the bucket count of its key,
absent keys have bucket count zero, and the running total is the number of
files seen. -/
def CountsInv (emap : List (String × String)) (done : List Item)
    (st : List (String × Nat) × Nat) : Prop :=
  (st.1.map Prod.fst).Nodup ∧
  "Others" ∈ st.1.map Prod.fst ∧
  (∀ p ∈ st.1, p.2 = bcount emap done p.1) ∧
  (∀ k, k ∉ st.1.map Prod.fst → bcount emap done k = 0) ∧
  st.2 = fcount done

end FileSorter

namespace FileSorter

theorem determine_cons (fname : String) (r : String × List String)
    (rest : List (String × List String)) (emap : List (String × String)) (d : String) :
    determine_target_folder fname (r :: rest) emap d =
      if ruleMatches fname r then r.1 else determine_target_folder fname rest emap d := by
  cases r
  rfl

theorem dget_cons {α : Type} (p : String × α) (m : List (String × α)) (k : String) :
    dget (p :: m) k = if p.1 = k then some p.2 else dget m k := by
  by_cases h : p.1 = k <;> simp [dget, List.find?_cons, h]

theorem dget_eq_none_iff {α : Type} (m : List (String × α)) (k : String) :
    dget m k = none ↔ k ∉ m.map Prod.fst := by
  induction m with
  | nil => simp [dget]
  | cons p m ih =>
    rw [dget_cons]
    by_cases h : p.1 = k
    · simp [h]
    · rw [if_neg h, ih]
      simp only [List.map_cons, List.mem_cons]
      constructor
      · intro hk hor
        rcases hor with h1 | h1
        · exact h h1.symm
        · exact hk h1
      · intro hk h1
        exact hk (Or.inr h1)

theorem dget_mem {α : Type} {m : List (String × α)} {k : String} {v : α}
    (h : dget m k = some v) : (k, v) ∈ m := by
  induction m with
  | nil => simp [dget] at h
  | cons p m ih =>
    rw [dget_cons] at h
    by_cases hk : p.1 = k
    · simp only [if_pos hk] at h
      injection h with h2
      have hp : (k, v) = p := by
        cases p
        simp only [Prod.mk.injEq]
        exact ⟨hk.symm, h2.symm⟩
      exact List.mem_cons.mpr (Or.inl hp)
    · simp only [if_neg hk] at h
      exact List.mem_cons_of_mem _ (ih h)

theorem dget_of_mem_nodup {α : Type} {m : List (String × α)} {k : String} {v : α}
    (hnd : (m.map Prod.fst).Nodup) (h : (k, v) ∈ m) : dget m k = some v := by
  induction m with
  | nil => simp at h
  | cons p m ih =>
    simp only [List.map_cons, List.nodup_cons] at hnd
    rw [dget_cons]
    rcases List.mem_cons.mp h with h1 | h1
    · simp [← h1]
    · have hk : p.1 ≠ k := by
        intro he
        exact hnd.1 (he ▸ (List.mem_map.mpr ⟨(k, v), h1, rfl⟩))
      simp [hk, ih hnd.2 h1]

theorem mem_keys_of_dget_some {α : Type} {m : List (String × α)} {k : String} {v : α}
    (h : dget m k = some v) : k ∈ m.map Prod.fst :=
  List.mem_map.mpr ⟨(k, v), dget_mem h, rfl⟩

theorem dget_some_of_mem_keys {α : Type} {m : List (String × α)} {k : String}
    (h : k ∈ m.map Prod.fst) : ∃ v, dget m k = some v := by
  cases he : dget m k with
  | none => exact absurd h ((dget_eq_none_iff m k).mp he)
  | some v => exact ⟨v, rfl⟩

theorem dget_dSet_self {α : Type} (m : List (String × α)) (k : String) (v : α) :
    dget (dSet m k v) k = some v := by
  induction m with
  | nil => simp [dSet, dget_cons]
  | cons p m ih =>
    by_cases h : p.1 = k
    · simp [dSet, h, dget_cons]
    · simp only [dSet, beq_iff_eq, h, if_false]
      rw [dget_cons, if_neg h]
      exact ih

theorem dget_dSet_ne {α : Type} (m : List (String × α)) (k k2 : String) (v : α)
    (h : k2 ≠ k) : dget (dSet m k v) k2 = dget m k2 := by
  have hk2 : ¬ k = k2 := fun he => h he.symm
  induction m with
  | nil =>
    rw [show dSet ([] : List (String × α)) k v = [(k, v)] from rfl, dget_cons, if_neg hk2]
  | cons p m ih =>
    by_cases hp : p.1 = k
    · simp only [dSet, beq_iff_eq, hp, if_true]
      have hpk2 : ¬ p.1 = k2 := by rw [hp]; exact hk2
      rw [dget_cons, dget_cons, if_neg hk2, if_neg hpk2]
    · simp only [dSet, beq_iff_eq, hp, if_false]
      rw [dget_cons, dget_cons, ih]

theorem keys_dSet_of_mem {α : Type} {m : List (String × α)} {k : String} (v : α)
    (h : k ∈ m.map Prod.fst) : (dSet m k v).map Prod.fst = m.map Prod.fst := by
  induction m with
  | nil => simp at h
  | cons p m ih =>
    by_cases hp : p.1 = k
    · simp [dSet, hp]
    · simp only [List.map_cons] at h
      rcases List.mem_cons.mp h with h1 | h1
      · exact absurd h1.symm hp
      · simp [dSet, hp, ih h1]

theorem dSet_of_not_mem {α : Type} {m : List (String × α)} {k : String} (v : α)
    (h : k ∉ m.map Prod.fst) : dSet m k v = m ++ [(k, v)] := by
  induction m with
  | nil => rfl
  | cons p m ih =>
    simp only [List.map_cons, List.mem_cons] at h
    push_neg at h
    have hp : ¬ p.1 = k := fun he => h.1 he.symm
    simp [dSet, hp, ih h.2]

theorem mem_dSet_of_nodup {α : Type} {m : List (String × α)} {k : String} {v : α}
    {x : String × α} (hnd : (m.map Prod.fst).Nodup) (hx : x ∈ dSet m k v) :
    x = (k, v) ∨ (x ∈ m ∧ x.1 ≠ k) := by
  induction m with
  | nil =>
    simp only [dSet, List.mem_singleton] at hx
    exact Or.inl hx
  | cons p m ih =>
    simp only [List.map_cons, List.nodup_cons] at hnd
    by_cases hp : p.1 = k
    · simp only [dSet, beq_iff_eq, hp, if_true] at hx
      rcases List.mem_cons.mp hx with h1 | h1
      · exact Or.inl h1
      · right
        refine ⟨List.mem_cons_of_mem _ h1, ?_⟩
        intro he
        exact hnd.1 (hp ▸ he ▸ (List.mem_map.mpr ⟨x, h1, rfl⟩))
    · simp only [dSet, beq_iff_eq, hp, if_false] at hx
      rcases List.mem_cons.mp hx with h1 | h1
      · exact Or.inr ⟨h1 ▸ List.mem_cons_self p m, h1 ▸ hp⟩
      · rcases ih hnd.2 h1 with h2 | h2
        · exact Or.inl h2
        · exact Or.inr ⟨List.mem_cons_of_mem _ h2.1, h2.2⟩

theorem pyMax2_mem (a : String × Nat) (l : List (String × Nat)) :
    pyMax2 a l = a ∨ pyMax2 a l ∈ l := by
  induction l generalizing a with
  | nil => exact Or.inl rfl
  | cons x xs ih =>
    simp only [pyMax2]
    rcases ih (if x.2 > a.2 then x else a) with h | h
    · rw [h]
      by_cases hc : x.2 > a.2
      · simp [hc]
      · simp [hc]
    · exact Or.inr (List.mem_cons_of_mem _ h)

theorem pyMax2_ge (a : String × Nat) (l : List (String × Nat)) :
    a.2 ≤ (pyMax2 a l).2 := by
  induction l generalizing a with
  | nil => exact le_refl _
  | cons x xs ih =>
    simp only [pyMax2]
    refine le_trans ?_ (ih (if x.2 > a.2 then x else a))
    by_cases hc : x.2 > a.2
    · simp [hc]
      omega
    · simp [hc]

theorem pyMax2_ge_mem (a : String × Nat) (l : List (String × Nat)) :
    ∀ y ∈ l, y.2 ≤ (pyMax2 a l).2 := by
  induction l generalizing a with
  | nil => intro y hy; simp at hy
  | cons x xs ih =>
    intro y hy
    rcases List.mem_cons.mp hy with h | h
    · rw [h]
      simp only [pyMax2]
      refine le_trans ?_ (pyMax2_ge (if x.2 > a.2 then x else a) xs)
      by_cases hc : x.2 > a.2
      · simp [hc]
      · simp [hc]
        omega
    · simp only [pyMax2]
      exact ih _ y h

theorem pyMaxBySnd_spec (l : List (String × Nat)) (h : l ≠ []) :
    ∃ m, pyMaxBySnd l = some m ∧ m ∈ l ∧ ∀ y ∈ l, y.2 ≤ m.2 := by
  cases l with
  | nil => exact absurd rfl h
  | cons x xs =>
    refine ⟨pyMax2 x xs, rfl, ?_, ?_⟩
    · rcases pyMax2_mem x xs with h1 | h1
      · rw [h1]; exact List.mem_cons_self x xs
      · exact List.mem_cons_of_mem _ h1
    · intro y hy
      rcases List.mem_cons.mp hy with h1 | h1
      · exact h1 ▸ pyMax2_ge x xs
      · exact pyMax2_ge_mem x xs y h1

theorem find_eq_some_of_unique {α : Type} {l : List α} {p : α → Bool} {c : α}
    (hmem : c ∈ l) (hc : p c = true) (huniq : ∀ x ∈ l, p x = true → x = c) :
    l.find? p = some c := by
  induction l with
  | nil => simp at hmem
  | cons a l ih =>
    by_cases ha : p a = true
    · rw [List.find?_cons_of_pos _ ha, huniq a (List.mem_cons_self a l) ha]
    · rw [List.find?_cons_of_neg _ (by simp [ha])]
      rcases List.mem_cons.mp hmem with h1 | h1
      · exact absurd (h1 ▸ hc) ha
      · exact ih h1 (fun x hx => huniq x (List.mem_cons_of_mem _ hx))

theorem find_none_or_unique {α : Type} {l : List α} {p : α → Bool} {c : α}
    (huniq : ∀ x ∈ l, p x = true → x = c) :
    l.find? p = none ∨ l.find? p = some c := by
  cases hf : l.find? p with
  | none => exact Or.inl rfl
  | some a =>
    right
    rw [huniq a (List.mem_of_find?_eq_some hf) (List.find?_some hf)]

theorem countP_ext {α : Type} {p q : α → Bool} (l : List α)
    (h : ∀ a ∈ l, p a = q a) : l.countP p = l.countP q := by
  induction l with
  | nil => rfl
  | cons a l ih =>
    rw [List.countP_cons, List.countP_cons, h a (List.mem_cons_self a l),
      ih (fun x hx => h x (List.mem_cons_of_mem _ hx))]

theorem countP_le_of_imp {α : Type} {p q : α → Bool} (l : List α)
    (h : ∀ a ∈ l, p a = true → q a = true) : l.countP p ≤ l.countP q := by
  induction l with
  | nil => exact le_refl _
  | cons a l ih =>
    rw [List.countP_cons, List.countP_cons]
    have := ih (fun x hx => h x (List.mem_cons_of_mem _ hx))
    by_cases hp : p a = true
    · rw [h a (List.mem_cons_self a l) hp]
      simp [hp]
      omega
    · simp only [Bool.not_eq_true] at hp
      simp [hp]
      omega

theorem countP_disjoint_le {α : Type} {p q r : α → Bool} (l : List α)
    (hpq : ∀ a ∈ l, ¬(p a = true ∧ q a = true))
    (hpr : ∀ a ∈ l, p a = true → r a = true)
    (hqr : ∀ a ∈ l, q a = true → r a = true) :
    l.countP p + l.countP q ≤ l.countP r := by
  induction l with
  | nil => simp
  | cons a l ih =>
    have hstep := ih (fun x hx => hpq x (List.mem_cons_of_mem _ hx))
      (fun x hx => hpr x (List.mem_cons_of_mem _ hx))
      (fun x hx => hqr x (List.mem_cons_of_mem _ hx))
    rw [List.countP_cons, List.countP_cons, List.countP_cons]
    by_cases hp : p a = true
    · have hr := hpr a (List.mem_cons_self a l) hp
      have hq : ¬ q a = true := fun hq => hpq a (List.mem_cons_self a l) ⟨hp, hq⟩
      simp only [Bool.not_eq_true] at hq
      simp [hp, hq, hr]
      omega
    · by_cases hq : q a = true
      · have hr := hqr a (List.mem_cons_self a l) hq
        simp only [Bool.not_eq_true] at hp
        simp [hp, hq, hr]
        omega
      · simp only [Bool.not_eq_true] at hp hq
        simp [hp, hq]
        split <;> omega

theorem charOfNat_toNat {n : Nat} (h1 : 97 ≤ n) (h2 : n ≤ 122) :
    (Char.ofNat n).toNat = n := by
  have hv : n.isValidChar := Or.inl (by omega)
  simp [Char.ofNat, hv, Char.ofNatAux, Char.toNat, UInt32.toNat, BitVec.toNat_ofNatLt,
    UInt32.ofNatCore]

theorem pyCharLower_eq_dot {c : Char} (h : pyCharLower c = '.') : c = '.' := by
  unfold pyCharLower at h
  by_cases hc : 65 ≤ c.toNat ∧ c.toNat ≤ 90
  · rw [if_pos hc] at h
    have h1 : (Char.ofNat (c.toNat + 32)).toNat = c.toNat + 32 :=
      charOfNat_toNat (by omega) (by omega)
    rw [h] at h1
    have h2 : ('.' : Char).toNat = 46 := by decide
    omega
  · rwa [if_neg hc] at h

theorem lastDotIndex_none_not_mem {l : List Char} (h : lastDotIndex l = none) :
    '.' ∉ l := by
  induction l with
  | nil => simp
  | cons c cs ih =>
    simp only [lastDotIndex] at h
    cases he : lastDotIndex cs with
    | some i => rw [he] at h; cases h
    | none =>
      rw [he] at h
      by_cases hc : c = '.'
      · rw [if_pos hc] at h; cases h
      · intro hmem
        rcases List.mem_cons.mp hmem with h1 | h1
        · exact hc h1.symm
        · exact ih he h1

theorem lastDotIndex_drop {l : List Char} {i : Nat} (h : lastDotIndex l = some i) :
    '.' ∉ l.drop (i + 1) := by
  induction l generalizing i with
  | nil => simp [lastDotIndex] at h
  | cons c cs ih =>
    simp only [lastDotIndex] at h
    cases he : lastDotIndex cs with
    | some j =>
      rw [he] at h
      injection h with h2
      rw [← h2]
      rw [show j + 1 + 1 = j + 2 from rfl, List.drop_succ_cons]
      exact ih he
    | none =>
      rw [he] at h
      by_cases hc : c = '.'
      · rw [if_pos hc] at h
        injection h with h2
        rw [← h2, List.drop_succ_cons, List.drop_zero]
        exact lastDotIndex_none_not_mem he
      · rw [if_neg hc] at h
        cases h

theorem pySplitExt_eq_of_some {l : List Char} {i : Nat} (he : lastDotIndex l = some i) :
    pySplitExt l = if 0 < i ∧ i + 1 < l.length then (l.take i, l.drop i) else (l, []) := by
  unfold pySplitExt
  rw [he]

theorem pySplitExt_eq_of_none {l : List Char} (he : lastDotIndex l = none) :
    pySplitExt l = (l, []) := by
  unfold pySplitExt
  rw [he]

theorem not_mem_extKey_dot (name : String) : '.' ∉ (extKey name).data := by
  intro hmem
  rcases List.mem_map.mp hmem with ⟨c, hcmem, hceq⟩
  rw [pyCharLower_eq_dot hceq] at hcmem
  cases he : lastDotIndex name.data with
  | none =>
    rw [pySplitExt_eq_of_none he] at hcmem
    simp at hcmem
  | some i =>
    rw [pySplitExt_eq_of_some he] at hcmem
    by_cases hcond : 0 < i ∧ i + 1 < name.data.length
    · rw [if_pos hcond] at hcmem
      simp only [List.drop_drop] at hcmem
      exact lastDotIndex_drop he hcmem
    · rw [if_neg hcond] at hcmem
      simp at hcmem

/-- Claim C9: extension classification only ever sees the final
dot-separated suffix of a name.  The lookup key never contains a dot, so a
multi-part extension entry such as tar.gz in the rule table is transparent
to dict.get and can never be matched; the file archive.tar.gz is looked up
under the key gz alone, and with an extension index holding only the
tar.gz entry it falls to the default category. -/
theorem extension_lookup_final_suffix_only :
    (∀ name : String, (extKey name).data.contains '.' = false) ∧
    (∀ (name c : String) (rest : List (String × String)),
      dget (("tar.gz", c) :: rest) (extKey name) = dget rest (extKey name)) ∧
    extKey "archive.tar.gz" = "gz" ∧
    determine_target_folder "archive.tar.gz" [] [("tar.gz", "Compressed")] "Others" = "Others" ∧
    determine_target_folder "archive.tar.gz" [] (map_extensions_to_folder folder_names)
      "Others" = "Compressed" := by
  have hnodot : ∀ name : String, (extKey name).data.contains '.' = false := by
    intro name
    cases hcon : (extKey name).data.contains '.' with
    | false => rfl
    | true => exact absurd (List.mem_of_elem_eq_true hcon) (not_mem_extKey_dot name)
  refine ⟨hnodot, ?_, by decide, by decide, by decide⟩
  intro name c rest
  have hne : ¬ (("tar.gz", c).1 = extKey name) := by
    intro he
    have h1 := hnodot name
    rw [← he] at h1
    have h1b : ("tar.gz" : String).data.contains '.' = false := h1
    exact absurd h1b (by decide)
  rw [dget_cons, if_neg hne]

/-- Claim C1: determine_target_folder returns the category of the first
filename rule, in table order, one of whose patterns is a prefix of the
stem; when no rule matches it returns the extension-index entry of the
lowercased, dot-stripped extension, with the default as fallback.  The
first conjunct never mentions the extension index value, so a matching
filename rule wins regardless of the extension. -/
theorem determine_target_folder_first_match_wins (fname : String)
    (rules : List (String × List String)) (emap : List (String × String)) (d : String) :
    (∀ (i : Nat) (hi : i < rules.length),
        ruleMatches fname (rules.get ⟨i, hi⟩) = true →
        (∀ (j : Nat) (hj : j < i),
          ruleMatches fname (rules.get ⟨j, lt_trans hj hi⟩) = false) →
        determine_target_folder fname rules emap d = (rules.get ⟨i, hi⟩).1) ∧
    ((∀ r ∈ rules, ruleMatches fname r = false) →
        determine_target_folder fname rules emap d = (dget emap (extKey fname)).getD d) := by
  constructor
  · intro i
    induction rules generalizing i with
    | nil => intro hi; exact absurd hi (Nat.not_lt_zero i)
    | cons r rest ih =>
      intro hi hmatch hbefore
      rw [determine_cons]
      cases i with
      | zero =>
        have hm : ruleMatches fname r = true := hmatch
        rw [if_pos hm]
        rfl
      | succ k =>
        have h0 : ruleMatches fname r = false := hbefore 0 (Nat.succ_pos k)
        rw [if_neg (by simp [h0])]
        exact ih k (Nat.lt_of_succ_lt_succ hi) hmatch
          (fun j hj => hbefore (j + 1) (Nat.succ_lt_succ hj))
  · intro hnone
    induction rules with
    | nil => rfl
    | cons r rest ih =>
      rw [determine_cons, if_neg (by simp [hnone r (List.mem_cons_self r rest)])]
      exact ih (fun x hx => hnone x (List.mem_cons_of_mem _ hx))

theorem determine_target_folder_first_match_wins_witness :
    determine_target_folder "IMG_0001.jpg" [("Photos", ["IMG_"])] [("jpg", "Images")]
      "Others" = "Photos" ∧
    determine_target_folder "report.pdf" [("Photos", ["IMG_"])] [("pdf", "Documents")]
      "Others" = "Documents" := by
  constructor
  · exact (determine_target_folder_first_match_wins "IMG_0001.jpg" [("Photos", ["IMG_"])]
      [("jpg", "Images")] "Others").1 0 (by decide) (by decide)
      (fun j hj => absurd hj (Nat.not_lt_zero j))
  · exact (determine_target_folder_first_match_wins "report.pdf" [("Photos", ["IMG_"])]
      [("pdf", "Documents")] "Others").2 (by decide)

/-- Claim C10: filename-rule prefix matching is case sensitive, unlike the
extension lookup.  With the rule table of the program, the stem img_0001
does not match the registered pattern IMG_, so the file is classified by
its extension, while the uppercase stem does match; an uppercase extension
still matches case-insensitively. -/
theorem prefix_match_case_sensitive :
    determine_target_folder "img_0001.jpg" filename_sorting_rules
      (map_extensions_to_folder folder_names) "Others" = "Images" ∧
    determine_target_folder "IMG_0001.jpg" filename_sorting_rules
      (map_extensions_to_folder folder_names) "Others" = "Photos" ∧
    determine_target_folder "img_0001.JPG" filename_sorting_rules
      (map_extensions_to_folder folder_names) "Others" = "Images" ∧
    ruleMatches "img_0001.jpg" ("Photos", ["IMG_"]) = false := by
  exact ⟨by decide, by decide, by decide, by decide⟩

theorem mem_keys_dSet {α : Type} {m : List (String × α)} {k0 k : String} (v : α)
    (h : k0 ∈ m.map Prod.fst) : k0 ∈ (dSet m k v).map Prod.fst := by
  by_cases hk : k ∈ m.map Prod.fst
  · rw [keys_dSet_of_mem v hk]
    exact h
  · rw [dSet_of_not_mem v hk, List.map_append]
    exact List.mem_append_left _ h

/-- Claim C3, counterexample: in the counting loop, a direct child file
whose extension is not in the extension index is counted at the real key
Others of the counts dict (source line 84), so with a single unmapped file
the count of the real category Others is one, not zero as the claim
requires. -/
theorem unmapped_counts_to_others_cex :
    classifyCounts [⟨"a.xyz", true⟩] [] ["Others", "Audio"] =
      Except.ok ([("Others", 1), ("Audio", 0)], 1) ∧
    dget [("Others", (1 : Nat)), ("Audio", 0)] "Others" = some 1 ∧
    bcount [] [⟨"a.xyz", true⟩] "Others" = 1 :=
  ⟨rfl, rfl, rfl⟩

/-- Claim C3 as amended: a direct child file whose extension is not in the
extension index is counted toward the real category Others (its increment
lands on the Others entry of the counts dict, which therefore also absorbs
the unclassified files); it contributes to no other category, and it is
included in the running file total. -/
theorem unmapped_counts_to_others (emap : List (String × String))
    (counts : List (String × Nat)) (t : Nat) (name : String) (n : Nat)
    (hunmapped : dget emap (extKey name) = none)
    (hothers : dget counts "Others" = some n) :
    classifyStep emap (counts, t) ⟨name, true⟩ =
      Except.ok (dSet counts "Others" (n + 1), t + 1) ∧
    dget (dSet counts "Others" (n + 1)) "Others" = some (n + 1) ∧
    ∀ c, c ≠ "Others" → dget (dSet counts "Others" (n + 1)) c = dget counts c := by
  refine ⟨?_, dget_dSet_self _ _ _, fun c hc => dget_dSet_ne _ _ _ _ hc⟩
  simp [classifyStep, hunmapped, hothers]

theorem unmapped_counts_to_others_witness :
    classifyStep [] ([("Others", 0)], 0) ⟨"a.xyz", true⟩ =
      Except.ok (dSet [("Others", 0)] "Others" 1, 1) ∧
    dget (dSet [("Others", (0 : Nat))] "Others" 1) "Others" = some 1 ∧
    dget (dSet [("Others", (0 : Nat))] "Others" 1) "Audio" = dget [("Others", 0)] "Audio" := by
  have T := unmapped_counts_to_others [] [("Others", 0)] 0 "a.xyz" 0 rfl rfl
  exact ⟨T.1, T.2.1, T.2.2 "Audio" (by decide)⟩

theorem classify_fold_ok_of_others (emap : List (String × String)) :
    ∀ (todo : List Item) (st : List (String × Nat) × Nat),
      "Others" ∈ st.1.map Prod.fst →
      ∃ st2, todo.foldlM (classifyStep emap) st = Except.ok st2 ∧
        "Others" ∈ st2.1.map Prod.fst := by
  intro todo
  induction todo with
  | nil => exact fun st h => ⟨st, rfl, h⟩
  | cons it rest ih =>
    intro st h
    have hstep : ∃ st1, classifyStep emap st it = Except.ok st1 ∧
        "Others" ∈ st1.1.map Prod.fst := by
      by_cases hit : it.isFile = true
      · cases hec : dget emap (extKey it.name) with
        | none =>
          obtain ⟨n, hn⟩ := dget_some_of_mem_keys h
          exact ⟨(dSet st.1 "Others" (n + 1), st.2 + 1),
            by simp [classifyStep, hit, hec, hn], mem_keys_dSet _ h⟩
        | some c =>
          by_cases hce : c = ""
          · obtain ⟨n, hn⟩ := dget_some_of_mem_keys h
            exact ⟨(dSet st.1 "Others" (n + 1), st.2 + 1),
              by simp [classifyStep, hit, hec, hce, hn], mem_keys_dSet _ h⟩
          · exact ⟨(dSet st.1 c ((dget st.1 c).getD 0 + 1), st.2 + 1),
              by simp [classifyStep, hit, hec, hce], mem_keys_dSet _ h⟩
      · exact ⟨st, by simp [classifyStep, hit], h⟩
    obtain ⟨st1, hs, h1⟩ := hstep
    obtain ⟨st2, hfold, h2⟩ := ih st1 h1
    exact ⟨st2, by simpa [List.foldlM_cons, hs] using hfold, h2⟩

/-- Claim C8, counterexample: with a category set not containing Others and
a folder holding one file with an unmapped extension, the statement
incrementing the Others entry raises a KeyError, so
classify_folder_by_content is not total over every set of categories. -/
theorem classify_raises_cex :
    classify_folder_by_content [⟨"a.xyz", true⟩] [] [] = Except.error "KeyError" := rfl

/-- Claim C8 as amended: determine_target_folder is a total pure function,
and classify_folder_by_content returns a category without raising for
every folder contents and every extension index provided the given
category set contains Others, which in the program it always does because
all_categories is built from the rule-table keys including Others. -/
theorem classify_total_with_others (items : List Item) (emap : List (String × String))
    (cats : List String) (hO : "Others" ∈ cats) :
    ∃ r, classify_folder_by_content items emap cats = Except.ok r := by
  have h0 : "Others" ∈ (cats.map (fun c => (c, (0 : Nat)))).map Prod.fst := by
    simp only [List.map_map, Function.comp]
    simpa using hO
  obtain ⟨st2, hfold, hmem⟩ :=
    classify_fold_ok_of_others emap items (cats.map (fun c => (c, (0 : Nat))), 0) h0
  have hfold2 : classifyCounts items emap cats = Except.ok st2 := hfold
  by_cases ht : st2.2 = 0
  · exact ⟨"Others", by unfold classify_folder_by_content; rw [hfold2]; simp [ht]⟩
  · have hne0 : st2.1 ≠ [] := by
      intro he
      rw [he] at hmem
      simp at hmem
    obtain ⟨mx, hmx, _, _⟩ := pyMaxBySnd_spec st2.1 hne0
    refine ⟨if 2 * mx.2 > st2.2 then mx.1 else "Others", ?_⟩
    unfold classify_folder_by_content
    rw [hfold2]
    simp only [ht, if_false, hmx]
    by_cases h2 : 2 * mx.2 > st2.2 <;> simp [h2]

theorem classify_total_with_others_witness :
    ∃ r, classify_folder_by_content [⟨"a.xyz", true⟩] [] ["Others"] = Except.ok r :=
  classify_total_with_others [⟨"a.xyz", true⟩] [] ["Others"] (by decide)

theorem bcount_snoc (emap : List (String × String)) (done : List Item) (it : Item)
    (k : String) :
    bcount emap (done ++ [it]) k =
      bcount emap done k +
        (if (it.isFile && (bucketOf emap it.name == k)) = true then 1 else 0) := by
  simp [bcount, List.countP_append, List.countP_cons]

theorem fcount_snoc (done : List Item) (it : Item) :
    fcount (done ++ [it]) = fcount done + (if it.isFile = true then 1 else 0) := by
  simp [fcount, List.countP_append, List.countP_cons]

theorem countsInv_incr {emap : List (String × String)} {done : List Item}
    {st : List (String × Nat) × Nat} {it : Item} {b : String}
    (hInv : CountsInv emap done st) (hit : it.isFile = true)
    (hb : bucketOf emap it.name = b) :
    CountsInv emap (done ++ [it]) (dSet st.1 b ((dget st.1 b).getD 0 + 1), st.2 + 1) := by
  obtain ⟨hnd, hO, hent, hmiss, htot⟩ := hInv
  have hpred : (it.isFile && (bucketOf emap it.name == b)) = true := by simp [hit, hb]
  have hgetD : (dget st.1 b).getD 0 = bcount emap done b := by
    by_cases hbm : b ∈ st.1.map Prod.fst
    · obtain ⟨v, hv⟩ := dget_some_of_mem_keys hbm
      have hv2 : v = bcount emap done b := hent _ (dget_mem hv)
      rw [hv]
      exact hv2
    · rw [(dget_eq_none_iff _ _).mpr hbm]
      simp [hmiss b hbm]
  refine ⟨?_, mem_keys_dSet _ hO, ?_, ?_, ?_⟩
  · by_cases hbm : b ∈ st.1.map Prod.fst
    · rw [keys_dSet_of_mem _ hbm]
      exact hnd
    · rw [dSet_of_not_mem _ hbm, List.map_append]
      simp [List.nodup_append, hnd, hbm]
  · intro p hp
    rcases mem_dSet_of_nodup hnd hp with h1 | ⟨h1, h2⟩
    · rw [h1]
      simp only [bcount_snoc, hpred, if_true, hgetD]
    · rw [bcount_snoc]
      have hfalse : (it.isFile && (bucketOf emap it.name == p.1)) = false := by
        have : (bucketOf emap it.name == p.1) = false := by
          rw [hb]
          exact beq_eq_false_iff_ne.mpr (fun he => h2 he.symm)
        simp [this]
      rw [hfalse]
      simp [hent p h1]
  · intro k hk
    have hknotm : k ∉ st.1.map Prod.fst := fun hm => hk (mem_keys_dSet _ hm)
    have hkb : k ≠ b := by
      intro he
      apply hk
      rw [he]
      exact mem_keys_of_dget_some (dget_dSet_self st.1 b _)
    rw [bcount_snoc]
    have hfalse : (it.isFile && (bucketOf emap it.name == k)) = false := by
      have : (bucketOf emap it.name == k) = false := by
        rw [hb]
        exact beq_eq_false_iff_ne.mpr (fun he => hkb he.symm)
      simp [this]
    rw [hfalse]
    simp [hmiss k hknotm]
  · simp [htot, fcount_snoc, hit]

theorem classifyStep_ok_of_inv {emap : List (String × String)} {done : List Item}
    {st : List (String × Nat) × Nat} (it : Item) (hInv : CountsInv emap done st) :
    ∃ st2, classifyStep emap st it = Except.ok st2 ∧ CountsInv emap (done ++ [it]) st2 := by
  by_cases hit : it.isFile = true
  · cases hec : dget emap (extKey it.name) with
    | none =>
      obtain ⟨n, hn⟩ := dget_some_of_mem_keys hInv.2.1
      have hb : bucketOf emap it.name = "Others" := by simp [bucketOf, codeCat, hec]
      refine ⟨(dSet st.1 "Others" (n + 1), st.2 + 1),
        by simp [classifyStep, hit, hec, hn], ?_⟩
      have h2 := countsInv_incr hInv hit hb
      simpa [hn] using h2
    | some c =>
      by_cases hce : c = ""
      · subst hce
        obtain ⟨n, hn⟩ := dget_some_of_mem_keys hInv.2.1
        have hb : bucketOf emap it.name = "Others" := by simp [bucketOf, codeCat, hec]
        refine ⟨(dSet st.1 "Others" (n + 1), st.2 + 1),
          by simp [classifyStep, hit, hec, hn], ?_⟩
        have h2 := countsInv_incr hInv hit hb
        simpa [hn] using h2
      · have hb : bucketOf emap it.name = c := by simp [bucketOf, codeCat, hec, hce]
        exact ⟨(dSet st.1 c ((dget st.1 c).getD 0 + 1), st.2 + 1),
          by simp [classifyStep, hit, hec, hce], countsInv_incr hInv hit hb⟩
  · refine ⟨st, by simp [classifyStep, hit], ?_⟩
    rw [Bool.not_eq_true] at hit
    obtain ⟨hnd, hO, hent, hmiss, htot⟩ := hInv
    have hf : ∀ k, (it.isFile && (bucketOf emap it.name == k)) = false := by
      intro k
      simp [hit]
    refine ⟨hnd, hO, ?_, ?_, ?_⟩
    · intro p hp
      rw [bcount_snoc, hf]
      simp [hent p hp]
    · intro k hk
      rw [bcount_snoc, hf]
      simp [hmiss k hk]
    · rw [fcount_snoc]
      simp [hit, htot]

theorem classifyCounts_inv (emap : List (String × String)) :
    ∀ (todo done : List Item) (st : List (String × Nat) × Nat),
      CountsInv emap done st →
      ∃ st2, todo.foldlM (classifyStep emap) st = Except.ok st2 ∧
        CountsInv emap (done ++ todo) st2 := by
  intro todo
  induction todo with
  | nil =>
    intro done st h
    exact ⟨st, rfl, by simpa using h⟩
  | cons it rest ih =>
    intro done st h
    obtain ⟨st1, hs, h1⟩ := classifyStep_ok_of_inv it h
    obtain ⟨st2, hf, h2⟩ := ih (done ++ [it]) st1 h1
    refine ⟨st2, by simpa [List.foldlM_cons, hs] using hf, ?_⟩
    rw [show done ++ it :: rest = (done ++ [it]) ++ rest by simp]
    exact h2

theorem countsInv_init (emap : List (String × String)) (cats : List String)
    (hO : "Others" ∈ cats) (hnd : cats.Nodup) :
    CountsInv emap [] (cats.map (fun c => (c, 0)), 0) := by
  have hkeys : (cats.map (fun c => (c, (0 : Nat)))).map Prod.fst = cats := by
    rw [List.map_map]
    exact List.map_id cats
  refine ⟨?_, ?_, ?_, ?_, rfl⟩
  · rw [hkeys]
    exact hnd
  · rw [hkeys]
    exact hO
  · intro p hp
    rcases List.mem_map.mp hp with ⟨c, _, hc⟩
    rw [← hc]
    simp [bcount]
  · intro k _
    simp [bcount]

theorem classify_eq_of_counts {items : List Item} {emap : List (String × String)}
    {cats : List String} {st : List (String × Nat) × Nat}
    (h : classifyCounts items emap cats = Except.ok st) :
    classify_folder_by_content items emap cats =
      (if st.2 = 0 then Except.ok "Others"
       else
         match pyMaxBySnd st.1 with
         | some m => if 2 * m.2 > st.2 then Except.ok m.1 else Except.ok "Others"
         | none => Except.error "ValueError") := by
  unfold classify_folder_by_content
  rw [h]

theorem bucket_eq_iff {emap : List (String × String)} (hne : ∀ p ∈ emap, p.2 ≠ "")
    {n c : String} (hc : c ≠ "Others") :
    bucketOf emap n = c ↔ dget emap (extKey n) = some c := by
  unfold bucketOf codeCat
  cases he : dget emap (extKey n) with
  | none =>
    simp only [Option.getD_none]
    constructor
    · intro h
      exact absurd h.symm hc
    · intro h
      cases h
  | some c0 =>
    by_cases h0 : c0 = ""
    · subst h0
      exact absurd rfl (hne _ (dget_mem he))
    · simp [h0]

theorem scount_eq_bcount {emap : List (String × String)} (hne : ∀ p ∈ emap, p.2 ≠ "")
    (items : List Item) {c : String} (hc : c ≠ "Others") :
    (items.filter (fun it => it.isFile)).countP
        (fun f => dget emap (extKey f.name) == some c) =
      bcount emap items c := by
  rw [List.countP_filter, bcount]
  apply countP_ext
  intro it _
  have hX : (dget emap (extKey it.name) == some c) = (bucketOf emap it.name == c) := by
    by_cases hd : dget emap (extKey it.name) = some c
    · simp [hd, (bucket_eq_iff hne hc).mpr hd]
    · have hb : ¬ bucketOf emap it.name = c := fun h => hd ((bucket_eq_iff hne hc).mp h)
      simp [hd, hb]
  rw [hX, Bool.and_comm]

theorem scount_others_le (emap : List (String × String)) (items : List Item) :
    (items.filter (fun it => it.isFile)).countP
        (fun f => dget emap (extKey f.name) == some "Others") ≤
      bcount emap items "Others" := by
  rw [List.countP_filter, bcount]
  apply countP_le_of_imp
  intro it _ h
  simp only [Bool.and_eq_true, beq_iff_eq] at h ⊢
  refine ⟨h.2, ?_⟩
  simp [bucketOf, codeCat, h.1]

theorem bcount_pair_le (emap : List (String × String)) (items : List Item)
    {c c2 : String} (hcc : c ≠ c2) :
    bcount emap items c + bcount emap items c2 ≤ fcount items := by
  apply countP_disjoint_le
  · intro it _ h
    obtain ⟨h1, h2⟩ := h
    simp only [Bool.and_eq_true, beq_iff_eq] at h1 h2
    exact hcc (h1.2.symm.trans h2.2)
  · intro it _ h
    simp only [Bool.and_eq_true] at h
    exact h.1
  · intro it _ h
    simp only [Bool.and_eq_true] at h
    exact h.1

/-- Claim C2: classify_folder_by_content agrees with the specified majority
rule, provided the given category set has distinct members including Others
and no extension maps to the empty-string category, as holds for the
program configuration.  The specified rule counts a file toward the
extension-index category of its extension only, yet the source also counts
unmapped files at the key Others; the returned category nevertheless
always coincides, because the inflated Others count can only make the
function return Others, which is also the fallback. -/
theorem classify_folder_matches_spec (items : List Item) (emap : List (String × String))
    (cats : List String) (hO : "Others" ∈ cats) (hnd : cats.Nodup)
    (hne : ∀ p ∈ emap, p.2 ≠ "") :
    classify_folder_by_content items emap cats =
      Except.ok (spec_classify_folder items emap) := by
  obtain ⟨st2, hfold, hinv⟩ :=
    classifyCounts_inv emap items [] (cats.map (fun c => (c, 0)), 0)
      (countsInv_init emap cats hO hnd)
  rw [List.nil_append] at hinv
  obtain ⟨hknd, hkO, hent, hmiss, htot⟩ := hinv
  have hfold2 : classifyCounts items emap cats = Except.ok st2 := hfold
  have hflen : (items.filter (fun it => it.isFile)).length = fcount items := by
    rw [fcount, List.countP_eq_length_filter]
  rw [classify_eq_of_counts hfold2]
  by_cases ht0 : st2.2 = 0
  · rw [if_pos ht0]
    have hfl0 : items.filter (fun it => it.isFile) = [] := by
      rw [← List.length_eq_zero, hflen, ← htot]
      exact ht0
    have hspec : spec_classify_folder items emap = "Others" := by
      unfold spec_classify_folder
      rw [show specPresent items emap = [] by rw [specPresent, hfl0]; rfl]
      rfl
    rw [hspec]
  · rw [if_neg ht0]
    have hne0 : st2.1 ≠ [] := by
      intro he
      rw [he] at hkO
      simp at hkO
    obtain ⟨mx, hmx, hmxmem, hmxmax⟩ := pyMaxBySnd_spec st2.1 hne0
    simp only [hmx]
    have hmxval : mx.2 = bcount emap items mx.1 := hent mx hmxmem
    have hvals : ∀ c, bcount emap items c ≤ mx.2 := by
      intro c
      by_cases hc : c ∈ st2.1.map Prod.fst
      · obtain ⟨v, hv⟩ := dget_some_of_mem_keys hc
        have h1 : v = bcount emap items c := hent _ (dget_mem hv)
        rw [← h1]
        exact hmxmax _ (dget_mem hv)
      · rw [hmiss c hc]
        exact Nat.zero_le _
    have hscount_le : ∀ c : String,
        (items.filter (fun it => it.isFile)).countP
          (fun f => dget emap (extKey f.name) == some c) ≤ mx.2 := by
      intro c
      by_cases hc : c = "Others"
      · subst hc
        exact le_trans (scount_others_le emap items) (hvals _)
      · rw [scount_eq_bcount hne items hc]
        exact hvals _
    by_cases hmaj : 2 * mx.2 > st2.2
    · rw [if_pos hmaj]
      by_cases hmxO : mx.1 = "Others"
      · have hbO : mx.2 = bcount emap items "Others" := by
          rw [← hmxO]
          exact hmxval
        have huniq : ∀ x ∈ specPresent items emap,
            specMajor items emap x = true → x = "Others" := by
          intro x hx hPx
          by_contra hxO
          have h1 : 2 * (items.filter (fun it => it.isFile)).countP
              (fun f => dget emap (extKey f.name) == some x) >
              (items.filter (fun it => it.isFile)).length := by
            simpa [specMajor] using hPx
          rw [scount_eq_bcount hne items hxO, hflen] at h1
          have h3 := bcount_pair_le emap items (show x ≠ "Others" from hxO)
          omega
        have hspec : spec_classify_folder items emap = "Others" := by
          unfold spec_classify_folder
          rcases find_none_or_unique huniq with hf | hf
          · rw [hf]
          · rw [hf]
        rw [hspec, hmxO]
      · have hstrict : 2 * bcount emap items mx.1 > fcount items := by
          rw [← hmxval, ← htot]
          exact hmaj
        have hpos : 0 < bcount emap items mx.1 := by omega
        rw [bcount] at hpos
        obtain ⟨itx, hitx, hpx⟩ := List.countP_pos_iff.mp hpos
        simp only [Bool.and_eq_true, beq_iff_eq] at hpx
        have hdx : dget emap (extKey itx.name) = some mx.1 :=
          (bucket_eq_iff hne hmxO).mp hpx.2
        have hmemp : mx.1 ∈ specPresent items emap := by
          rw [specPresent, List.mem_dedup, List.mem_filterMap]
          exact ⟨itx, List.mem_filter.mpr ⟨hitx, hpx.1⟩, hdx⟩
        have hP : specMajor items emap mx.1 = true := by
          simp only [specMajor, decide_eq_true_eq]
          rw [scount_eq_bcount hne items hmxO, hflen]
          exact hstrict
        have huniq : ∀ x ∈ specPresent items emap,
            specMajor items emap x = true → x = mx.1 := by
          intro x hx hPx
          by_contra hxmx
          have h1 : 2 * (items.filter (fun it => it.isFile)).countP
              (fun f => dget emap (extKey f.name) == some x) >
              (items.filter (fun it => it.isFile)).length := by
            simpa [specMajor] using hPx
          rw [hflen] at h1
          by_cases hxO : x = "Others"
          · subst hxO
            have hle := scount_others_le emap items
            have h3 := bcount_pair_le emap items (show mx.1 ≠ "Others" from hmxO)
            omega
          · rw [scount_eq_bcount hne items hxO] at h1
            have h3 := bcount_pair_le emap items (show x ≠ mx.1 from hxmx)
            omega
        have hspec : spec_classify_folder items emap = mx.1 := by
          unfold spec_classify_folder
          rw [find_eq_some_of_unique hmemp hP huniq]
        rw [hspec]
    · rw [if_neg hmaj]
      have hnone : (specPresent items emap).find? (specMajor items emap) = none := by
        rw [List.find?_eq_none]
        intro x hx hPx
        have h1 : 2 * (items.filter (fun it => it.isFile)).countP
            (fun f => dget emap (extKey f.name) == some x) >
            (items.filter (fun it => it.isFile)).length := by
          simpa [specMajor] using hPx
        have h2 := hscount_le x
        rw [hflen, ← htot] at h1
        omega
      have hspec : spec_classify_folder items emap = "Others" := by
        unfold spec_classify_folder
        rw [hnone]
      rw [hspec]

theorem classify_folder_matches_spec_witness :
    classify_folder_by_content
        [⟨"a.mp3", true⟩, ⟨"b.mp3", true⟩, ⟨"c.mp3", true⟩, ⟨"d.txt", true⟩]
        [("mp3", "Audio"), ("txt", "Documents")] ["Audio", "Documents", "Others"] =
      Except.ok (spec_classify_folder
        [⟨"a.mp3", true⟩, ⟨"b.mp3", true⟩, ⟨"c.mp3", true⟩, ⟨"d.txt", true⟩]
        [("mp3", "Audio"), ("txt", "Documents")]) ∧
    spec_classify_folder
        [⟨"a.mp3", true⟩, ⟨"b.mp3", true⟩, ⟨"c.mp3", true⟩, ⟨"d.txt", true⟩]
        [("mp3", "Audio"), ("txt", "Documents")] = "Audio" ∧
    classify_folder_by_content
        [⟨"a.mp3", true⟩, ⟨"b.mp3", true⟩, ⟨"c.txt", true⟩, ⟨"d.txt", true⟩]
        [("mp3", "Audio"), ("txt", "Documents")] ["Audio", "Documents", "Others"] =
      Except.ok "Others" := by
  refine ⟨classify_folder_matches_spec _ _ _ (by decide) (by decide) (by decide),
    by decide, rfl⟩

theorem lookupChild_eq_dget (es : FS) (n : String) : lookupChild es n = dget es n := rfl

theorem lookupChild_cons (p : String × Node) (es : FS) (c : String) :
    lookupChild (p :: es) c = if p.1 = c then some p.2 else lookupChild es c :=
  dget_cons p es c

theorem dget_append_of_some {α : Type} {es es2 : List (String × α)} {c : String} {x : α}
    (h : dget es c = some x) : dget (es ++ es2) c = some x := by
  induction es with
  | nil => simp [dget] at h
  | cons p rest ih =>
    rw [dget_cons] at h
    rw [List.cons_append, dget_cons]
    by_cases hp : p.1 = c
    · rw [if_pos hp] at h
      rw [if_pos hp]
      exact h
    · rw [if_neg hp] at h
      rw [if_neg hp]
      exact ih h

theorem lookup_eraseName_ne {es : FS} {src c : String} (h : ¬ c = src) :
    lookupChild (eraseName es src) c = lookupChild es c := by
  induction es with
  | nil => rfl
  | cons p rest ih =>
    simp only [eraseName, List.filter_cons]
    by_cases hp : p.1 = src
    · have hcond : (decide ¬ (p.1 = src)) = false := by simp [hp]
      rw [hcond]
      simp only [Bool.false_eq_true, if_false]
      have hpc : ¬ p.1 = c := fun he => h (he.symm.trans hp)
      rw [lookupChild_cons, if_neg hpc]
      exact ih
    · have hcond : (decide ¬ (p.1 = src)) = true := by simp [hp]
      rw [hcond, if_pos rfl]
      rw [lookupChild_cons, lookupChild_cons]
      by_cases hc : p.1 = c
      · rw [if_pos hc, if_pos hc]
      · rw [if_neg hc, if_neg hc]
        exact ih

theorem lookup_addIntoDir (es : FS) (cat n2 : String) (x : Node) (c : String) :
    lookupChild (addIntoDir es cat n2 x) c =
      (lookupChild es c).map (fun nd => if c = cat then addChild nd n2 x else nd) := by
  induction es with
  | nil => rfl
  | cons p rest ih =>
    simp only [addIntoDir, List.map_cons]
    by_cases hpcat : p.1 = cat
    · rw [if_pos hpcat, lookupChild_cons, lookupChild_cons]
      by_cases hc : p.1 = c
      · rw [if_pos hc, if_pos hc]
        have hccat : c = cat := hc ▸ hpcat
        simp [hccat]
      · rw [if_neg hc, if_neg hc]
        exact ih
    · rw [if_neg hpcat, lookupChild_cons, lookupChild_cons]
      by_cases hc : p.1 = c
      · rw [if_pos hc, if_pos hc]
        have hccat : ¬ c = cat := fun he => hpcat (hc.trans he)
        simp [hccat]
      · rw [if_neg hc, if_neg hc]
        exact ih

theorem getNode_two (fs : FS) (a b : String) :
    getNode [a, b] fs =
      match lookupChild fs a with
      | some (Node.dir cs) => lookupChild cs b
      | _ => none := by
  cases h1 : lookupChild fs a with
  | none => unfold getNode; rw [h1]
  | some nd =>
    cases nd with
    | file => unfold getNode; rw [h1]
    | dir cs =>
      unfold getNode
      rw [h1]
      show getNode [b] cs = lookupChild cs b
      unfold getNode
      cases h2 : lookupChild cs b with
      | none => rfl
      | some nd2 => rfl

theorem pathExists_two_dir {fs : FS} {a b : String} (h : pathExists [a, b] fs = true) :
    ∃ cs, lookupChild fs a = some (Node.dir cs) ∧ (lookupChild cs b).isSome = true := by
  unfold pathExists at h
  rw [getNode_two] at h
  cases h1 : lookupChild fs a with
  | none => rw [h1] at h; simp at h
  | some nd =>
    cases nd with
    | file => rw [h1] at h; simp at h
    | dir cs =>
      rw [h1] at h
      exact ⟨cs, rfl, h⟩

theorem mkdirRoot_noop {fs : FS} {c : String} {cs : List (String × Node)}
    (h : lookupChild fs c = some (Node.dir cs)) : mkdirRoot fs c = Except.ok fs := by
  unfold mkdirRoot
  rw [h]

theorem mkdirRoot_ok {es : FS} {c : String} {es2 : FS} (h : mkdirRoot es c = Except.ok es2) :
    es2 = es ∨ (lookupChild es c = none ∧ es2 = es ++ [(c, Node.dir [])]) := by
  unfold mkdirRoot at h
  cases h1 : lookupChild es c with
  | none =>
    rw [h1] at h
    injection h with h2
    exact Or.inr ⟨rfl, h2.symm⟩
  | some nd =>
    rw [h1] at h
    cases nd with
    | dir cs =>
      injection h with h2
      exact Or.inl h2.symm
    | file => cases h

theorem renameIntoCat_ok {es : FS} {src cat : String} {fs2 : FS}
    (h : renameIntoCat es src cat = Except.ok fs2) :
    ∃ nd cs, lookupChild es src = some nd ∧
      lookupChild (eraseName es src) cat = some (Node.dir cs) ∧
      fs2 = addIntoDir (eraseName es src) cat src nd := by
  unfold renameIntoCat at h
  cases h1 : lookupChild es src with
  | none => rw [h1] at h; cases h
  | some nd =>
    rw [h1] at h
    cases h2 : lookupChild (eraseName es src) cat with
    | none => rw [h2] at h; cases h
    | some nd2 =>
      rw [h2] at h
      cases nd2 with
      | file => cases h
      | dir cs =>
        injection h with h3
        exact ⟨nd, cs, rfl, rfl, h3.symm⟩

/-- Claim C5: when an entry of the same name already exists at the computed
target path before the move, both loops skip: the state is returned
unchanged (the source entry stays put, nothing is overwritten, no renaming
happens) and exactly one warning entry is appended to the log. -/
theorem collision_skips_move :
    (∀ (emap : List (String × String)) (rules : List (String × List String))
        (fails : String → String → Bool) (st : FS × List LogEntry) (fname : String),
      pathExists [determine_target_folder fname rules emap "Others", fname] st.1 = true →
      moveFileStep emap rules fails st fname =
        (st.1, st.2 ++ [LogEntry.fileExistsSkip fname])) ∧
    (∀ (rootName : String) (cats : List String) (emap : List (String × String))
        (fails : String → String → Bool) (st : FS × List LogEntry)
        (fname cls : String) (items : List Item),
      fname ∉ cats →
      childItems st.1 fname = some items →
      classify_folder_by_content items emap cats = Except.ok cls →
      rootName ≠ cls →
      pathExists [cls, fname] st.1 = true →
      moveFolderStep rootName cats emap fails st fname =
        Except.ok (st.1, st.2 ++ [LogEntry.folderExistsSkip fname])) := by
  constructor
  · intro emap rules fails st fname h
    simp only [moveFileStep, h, if_true]
  · intro rootName cats emap fails st fname cls items hnc hchild hcls hroot hex
    obtain ⟨cs, hlcls, _⟩ := pathExists_two_dir hex
    simp only [moveFolderStep, hnc, if_false, hchild, hcls, hroot, if_true,
      mkdirRoot_noop hlcls, hex]
    rw [if_pos hroot]

theorem collision_skips_move_witness :
    moveFileStep [("txt", "Documents")] [] (fun _ _ => false)
      ([("a.txt", Node.file), ("Documents", Node.dir [("a.txt", Node.file)])], []) "a.txt" =
      ([("a.txt", Node.file), ("Documents", Node.dir [("a.txt", Node.file)])],
        [LogEntry.fileExistsSkip "a.txt"]) ∧
    moveFolderStep "Downloads" ["Audio", "Others"] [("mp3", "Audio")] (fun _ _ => false)
      ([("X", Node.dir [("s.mp3", Node.file)]), ("Audio", Node.dir [("X", Node.dir [])])], [])
      "X" =
      Except.ok ([("X", Node.dir [("s.mp3", Node.file)]),
        ("Audio", Node.dir [("X", Node.dir [])])], [LogEntry.folderExistsSkip "X"]) := by
  constructor
  · exact collision_skips_move.1 [("txt", "Documents")] [] (fun _ _ => false)
      ([("a.txt", Node.file), ("Documents", Node.dir [("a.txt", Node.file)])], []) "a.txt"
      (by decide)
  · exact collision_skips_move.2 "Downloads" ["Audio", "Others"] [("mp3", "Audio")]
      (fun _ _ => false)
      ([("X", Node.dir [("s.mp3", Node.file)]), ("Audio", Node.dir [("X", Node.dir [])])], [])
      "X" "Audio" [⟨"s.mp3", true⟩] (by decide) rfl rfl (by decide) rfl

theorem move_files_log_length (emap : List (String × String))
    (rules : List (String × List String)) (fails : String → String → Bool) :
    ∀ (files : List String) (st : FS × List LogEntry),
      ((files.foldl (moveFileStep emap rules fails) st).2).length =
        st.2.length + files.length := by
  intro files
  induction files with
  | nil => intro st; simp
  | cons f rest ih =>
    intro st
    rw [List.foldl_cons, ih]
    have hstep : (moveFileStep emap rules fails st f).2.length = st.2.length + 1 := by
      simp only [moveFileStep]
      split
      · simp
      · split
        · simp
        · split <;> simp
    rw [hstep]
    simp
    omega

/-- Claim C4, counterexample: a rename failure in the folder loop is not
caught: with an oracle failing the move of folder A, the loop raises before
reaching folder B, nothing is logged at the loop level, and B is never
examined, contradicting the claim that a move failure is caught at the
entry, logged, and processing continues. -/
theorem folder_move_failure_aborts_cex :
    move_folders_based_on_content ["A", "B"] "Downloads"
        [("Audio", ["mp3"]), ("Others", ["NONE"])] []
        (map_extensions_to_folder [("Audio", ["mp3"]), ("Others", ["NONE"])])
        (fun src _ => src == "A")
        [("A", Node.dir [("s.mp3", Node.file)]), ("B", Node.dir [("t.mp3", Node.file)]),
         ("Audio", Node.dir []), ("Others", Node.dir [])] =
      Except.error
        ([("A", Node.dir [("s.mp3", Node.file)]), ("B", Node.dir [("t.mp3", Node.file)]),
          ("Audio", Node.dir []), ("Others", Node.dir [])], []) ∧
    moveFolderStep "Downloads"
        (combine_categories [("Audio", ["mp3"]), ("Others", ["NONE"])] [])
        (map_extensions_to_folder [("Audio", ["mp3"]), ("Others", ["NONE"])])
        (fun src _ => src == "A")
        ([("A", Node.dir [("s.mp3", Node.file)]), ("B", Node.dir [("t.mp3", Node.file)]),
          ("Audio", Node.dir []), ("Others", Node.dir [])], []) "B" =
      Except.ok
        ([("A", Node.dir [("s.mp3", Node.file)]),
          ("Audio", Node.dir [("B", Node.dir [("t.mp3", Node.file)])]), ("Others", Node.dir [])],
         [LogEntry.movedFolder "B" "Audio"]) :=
  ⟨rfl, rfl⟩

/-- Claim C4 as amended: in move_files every failure is caught per entry
and the loop always runs to completion, appending exactly one log entry per
file; in move_folders_based_on_content a failing step is not caught: the
whole loop evaluates to that failure, so the remaining folders are never
processed and nothing is logged at the loop level. -/
theorem move_failure_handling :
    (∀ (files : List String) (emap : List (String × String))
        (rules : List (String × List String)) (fails : String → String → Bool) (fs : FS),
      (move_files files emap rules fails fs).2.length = files.length) ∧
    (∀ (rootName : String) (fn rules : List (String × List String))
        (emap : List (String × String)) (fails : String → String → Bool)
        (fs : FS) (f : String) (rest : List String) (e : FS × List LogEntry),
      moveFolderStep rootName (combine_categories fn rules) emap fails (fs, []) f =
        Except.error e →
      move_folders_based_on_content (f :: rest) rootName fn rules emap fails fs =
        Except.error e) := by
  constructor
  · intro files emap rules fails fs
    have h := move_files_log_length emap rules fails files (fs, [])
    simpa [move_files] using h
  · intro rootName fn rules emap fails fs f rest e hstep
    unfold move_folders_based_on_content
    rw [List.foldlM_cons, hstep]
    rfl

theorem move_failure_handling_witness :
    move_folders_based_on_content ["A"] "Downloads"
        [("Audio", ["mp3"]), ("Others", ["NONE"])] []
        (map_extensions_to_folder [("Audio", ["mp3"]), ("Others", ["NONE"])])
        (fun src _ => src == "A")
        [("A", Node.dir [("s.mp3", Node.file)]), ("Audio", Node.dir []),
         ("Others", Node.dir [])] =
      Except.error ([("A", Node.dir [("s.mp3", Node.file)]), ("Audio", Node.dir []),
        ("Others", Node.dir [])], []) ∧
    (move_files ["x.mp3"] [("mp3", "Audio")] [] (fun _ _ => true)
      [("x.mp3", Node.file), ("Audio", Node.dir [])]).2.length = 1 := by
  constructor
  · exact move_failure_handling.2 "Downloads" [("Audio", ["mp3"]), ("Others", ["NONE"])] []
      (map_extensions_to_folder [("Audio", ["mp3"]), ("Others", ["NONE"])])
      (fun src _ => src == "A")
      [("A", Node.dir [("s.mp3", Node.file)]), ("Audio", Node.dir []), ("Others", Node.dir [])]
      "A" [] _ rfl
  · exact move_failure_handling.1 ["x.mp3"] [("mp3", "Audio")] [] (fun _ _ => true)
      [("x.mp3", Node.file), ("Audio", Node.dir [])]

theorem isRootDir_mkdirRoot {es es2 : FS} {c c2 : String}
    (h : mkdirRoot es c2 = Except.ok es2) (hd : IsRootDir es c) : IsRootDir es2 c := by
  rcases mkdirRoot_ok h with rfl | ⟨_, rfl⟩
  · exact hd
  · obtain ⟨cs, hcs⟩ := hd
    exact ⟨cs, dget_append_of_some hcs⟩

theorem isRootDir_rename {es fs2 : FS} {src cat c : String}
    (h : renameIntoCat es src cat = Except.ok fs2) (hne : ¬ c = src)
    (hd : IsRootDir es c) : IsRootDir fs2 c := by
  obtain ⟨nd, cs, hsrc, hcat, rfl⟩ := renameIntoCat_ok h
  obtain ⟨cs0, hcs0⟩ := hd
  have h1 : lookupChild (eraseName es src) c = some (Node.dir cs0) := by
    rw [lookup_eraseName_ne hne]
    exact hcs0
  by_cases hcc : c = cat
  · exact ⟨cs0 ++ [(src, nd)], by rw [lookup_addIntoDir, h1]; simp [hcc, addChild]⟩
  · exact ⟨cs0, by rw [lookup_addIntoDir, h1]; simp [hcc]⟩

theorem isRootDir_moveFileStep {emap : List (String × String)}
    {rules : List (String × List String)} {fails : String → String → Bool}
    {st : FS × List LogEntry} {fname c : String}
    (hne : ¬ c = fname) (hd : IsRootDir st.1 c) :
    IsRootDir (moveFileStep emap rules fails st fname).1 c := by
  simp only [moveFileStep]
  split
  · exact hd
  · split
    · exact hd
    · cases hr : renameIntoCat st.1 fname (determine_target_folder fname rules emap "Others") with
      | ok fs2 =>
        simp only [hr]
        exact isRootDir_rename hr hne hd
      | error e =>
        simp only [hr]
        exact hd

theorem isRootDir_move_files {emap : List (String × String)}
    {rules : List (String × List String)} {fails : String → String → Bool}
    (files : List String) {c : String} (hnc : ∀ f ∈ files, ¬ c = f) :
    ∀ st : FS × List LogEntry, IsRootDir st.1 c →
      IsRootDir ((files.foldl (moveFileStep emap rules fails) st)).1 c := by
  induction files with
  | nil => intro st h; exact h
  | cons f rest ih =>
    intro st h
    rw [List.foldl_cons]
    exact ih (fun g hg => hnc g (List.mem_cons_of_mem _ hg)) _
      (isRootDir_moveFileStep (hnc f (List.mem_cons_self f rest)) h)

theorem isRootDir_moveFolderStep {rootName : String} {cats : List String}
    {emap : List (String × String)} {fails : String → String → Bool}
    {st : FS × List LogEntry} {fname c : String}
    (hcc : c ∈ cats) (hd : IsRootDir st.1 c) :
    IsRootDir (exceptState (moveFolderStep rootName cats emap fails st fname)).1 c := by
  simp only [moveFolderStep]
  split
  · exact hd
  · rename_i hf
    split
    · exact hd
    · rename_i items hci
      split
      · exact hd
      · rename_i cls hcl
        split
        · split
          · exact hd
          · rename_i fs1 hmk
            have hd1 : IsRootDir fs1 c := isRootDir_mkdirRoot hmk hd
            split
            · exact hd1
            · split
              · exact hd1
              · split
                · rename_i fs2 hr
                  have hne : ¬ c = fname := fun he => hf (he ▸ hcc)
                  exact isRootDir_rename hr hne hd1
                · exact hd1
        · exact hd

theorem isRootDir_fold_folders {rootName : String} {cats : List String}
    {emap : List (String × String)} {fails : String → String → Bool} {c : String}
    (hcc : c ∈ cats) :
    ∀ (folders : List String) (st : FS × List LogEntry), IsRootDir st.1 c →
      IsRootDir (exceptState
        (folders.foldlM (moveFolderStep rootName cats emap fails) st)).1 c := by
  intro folders
  induction folders with
  | nil => intro st h; exact h
  | cons f rest ih =>
    intro st h
    rw [List.foldlM_cons]
    cases hs : moveFolderStep rootName cats emap fails st f with
    | ok st1 =>
      have h1 : IsRootDir st1.1 c := by
        have h2 := @isRootDir_moveFolderStep rootName cats emap fails st f c hcc h
        rw [hs] at h2
        exact h2
      exact ih st1 h1
    | error st1 =>
      have h1 : IsRootDir st1.1 c := by
        have h2 := @isRootDir_moveFolderStep rootName cats emap fails st f c hcc h
        rw [hs] at h2
        exact h2
      exact h1

theorem isRootDir_move_folders {rootName : String} {fn rules : List (String × List String)}
    {emap : List (String × String)} {fails : String → String → Bool} {c : String}
    (hcc : c ∈ combine_categories fn rules) (folders : List String) (fs : FS)
    (hd : IsRootDir fs c) :
    IsRootDir (exceptState
      (move_folders_based_on_content folders rootName fn rules emap fails fs)).1 c :=
  isRootDir_fold_folders hcc folders (fs, []) hd

theorem isRootDir_mkdir_fold {c : String} :
    ∀ (L : List String) (fs fs1 : FS), L.foldlM mkdirRoot fs = Except.ok fs1 →
      IsRootDir fs c → IsRootDir fs1 c := by
  intro L
  induction L with
  | nil =>
    intro fs fs1 h hd
    have h2 : (Except.ok fs : Except Unit FS) = Except.ok fs1 := h
    injection h2 with h3
    exact h3 ▸ hd
  | cons k rest ih =>
    intro fs fs1 h hd
    rw [List.foldlM_cons] at h
    cases hm : mkdirRoot fs k with
    | error e =>
      rw [hm] at h
      have h2 : (Except.error e : Except Unit FS) = Except.ok fs1 := h
      cases h2
    | ok fsk =>
      rw [hm] at h
      have h2 : rest.foldlM mkdirRoot fsk = Except.ok fs1 := h
      exact ih fsk fs1 h2 (isRootDir_mkdirRoot hm hd)

theorem mem_rootFiles {es : FS} {f : String} (h : f ∈ rootFiles es) :
    (f, Node.file) ∈ es := by
  rcases List.mem_filterMap.mp h with ⟨p, hp, hpe⟩
  cases p with
  | mk n nd =>
    cases nd with
    | file =>
      injection hpe with h2
      rw [← h2]
      exact hp
    | dir cs => cases hpe

theorem mem_rootDirs {es : FS} {d : String} (h : d ∈ rootDirs es) :
    ∃ cs, (d, Node.dir cs) ∈ es := by
  rcases List.mem_filterMap.mp h with ⟨p, hp, hpe⟩
  cases p with
  | mk n nd =>
    cases nd with
    | file => cases hpe
    | dir cs =>
      injection hpe with h2
      exact ⟨cs, h2 ▸ hp⟩

/-- Claim C7: a top-level folder whose name is a recognized category (a key
of the rule table or of the filename rules, Others included) is skipped by
the folder-reclassification step without being classified or moved, and a
top-level directory bearing a category name is still a top-level directory
after the whole run. -/
theorem category_folders_skipped :
    (∀ (rootName : String) (cats : List String) (emap : List (String × String))
        (fails : String → String → Bool) (st : FS × List LogEntry) (fname : String),
      fname ∈ cats →
      moveFolderStep rootName cats emap fails st fname =
        Except.ok (st.1, st.2 ++ [LogEntry.skipCategoryFolder fname])) ∧
    (∀ (fs : FS) (rootName : String) (fn rules : List (String × List String))
        (fails : String → String → Bool) (c : String) (cs0 : List (String × Node)),
      (fs.map Prod.fst).Nodup →
      c ∈ combine_categories fn rules →
      lookupChild fs c = some (Node.dir cs0) →
      ∃ cs1, lookupChild (runSorter fs rootName fn rules fails).1 c =
        some (Node.dir cs1)) := by
  constructor
  · intro rootName cats emap fails st fname h
    unfold moveFolderStep
    rw [if_pos h]
  · intro fs rootName fn rules fails c cs0 hnd hcc hc
    have hfc : ∀ f ∈ rootFiles fs, ¬ c = f := by
      intro f hf he
      have h1 : dget fs c = some Node.file :=
        dget_of_mem_nodup hnd (he ▸ mem_rootFiles hf)
      rw [lookupChild_eq_dget, h1] at hc
      injection hc with h2
      cases h2
    cases hcf : create_folders fs fn rules with
    | error e =>
      simp only [runSorter, hcf]
      exact ⟨cs0, hc⟩
    | ok fs1 =>
      have hd1 : IsRootDir fs1 c :=
        isRootDir_mkdir_fold (fn.map Prod.fst ++ rules.map Prod.fst) fs fs1 hcf ⟨cs0, hc⟩
      have hd2 : IsRootDir
          (move_files (rootFiles fs) (map_extensions_to_folder fn) rules fails fs1).1 c :=
        isRootDir_move_files (rootFiles fs) hfc (fs1, []) hd1
      cases hm : move_folders_based_on_content (rootDirs fs) rootName fn rules
          (map_extensions_to_folder fn) fails
          (move_files (rootFiles fs) (map_extensions_to_folder fn) rules fails fs1).1 with
      | ok stx =>
        have h3 := @isRootDir_move_folders rootName fn rules (map_extensions_to_folder fn)
          fails c hcc (rootDirs fs)
          (move_files (rootFiles fs) (map_extensions_to_folder fn) rules fails fs1).1 hd2
        rw [hm] at h3
        simp only [runSorter, get_files_and_folders, hcf, hm]
        exact h3
      | error stx =>
        have h3 := @isRootDir_move_folders rootName fn rules (map_extensions_to_folder fn)
          fails c hcc (rootDirs fs)
          (move_files (rootFiles fs) (map_extensions_to_folder fn) rules fails fs1).1 hd2
        rw [hm] at h3
        simp only [runSorter, get_files_and_folders, hcf, hm]
        exact h3

theorem category_folders_skipped_witness :
    moveFolderStep "Downloads" ["Audio", "Others"] [] (fun _ _ => false)
      ([("Audio", Node.dir [])], []) "Audio" =
      Except.ok ([("Audio", Node.dir [])], [LogEntry.skipCategoryFolder "Audio"]) ∧
    ∃ cs1, lookupChild (runSorter [("Audio", Node.dir []), ("x.mp3", Node.file)] "Downloads"
      [("Audio", ["mp3"]), ("Others", ["NONE"])] [("Photos", ["IMG_"])]
      (fun _ _ => false)).1 "Audio" = some (Node.dir cs1) := by
  constructor
  · exact category_folders_skipped.1 "Downloads" ["Audio", "Others"] [] (fun _ _ => false)
      ([("Audio", Node.dir [])], []) "Audio" (by decide)
  · exact category_folders_skipped.2 [("Audio", Node.dir []), ("x.mp3", Node.file)]
      "Downloads" [("Audio", ["mp3"]), ("Others", ["NONE"])] [("Photos", ["IMG_"])]
      (fun _ _ => false) "Audio" [] (by decide) (by decide) rfl

/-- Claim C6, counterexample: idempotence as stated fails when a collision
is present.  With a directory holding the file a.txt and a pre-existing
Documents folder already containing a.txt, the first run skips the file
with a warning and leaves it at the top level, so the second run hits the
same collision and also emits a warning: the second run does not emit only
info lines and the file is not in its final location. -/
theorem second_run_warns_cex :
    ((runSorter
        (runSorter [("a.txt", Node.file), ("Documents", Node.dir [("a.txt", Node.file)])]
          "Downloads" folder_names filename_sorting_rules (fun _ _ => false)).1
        "Downloads" folder_names filename_sorting_rules (fun _ _ => false)).2.all
      (fun e => e.isInfo)) = false := by
  rfl

theorem dget_append_of_none {α : Type} {es : List (String × α)} {c : String}
    (h : dget es c = none) (es2 : List (String × α)) :
    dget (es ++ es2) c = dget es2 c := by
  induction es with
  | nil => rfl
  | cons p rest ih =>
    rw [dget_cons] at h
    rw [List.cons_append, dget_cons]
    by_cases hp : p.1 = c
    · rw [if_pos hp] at h
      cases h
    · rw [if_neg hp] at h
      rw [if_neg hp]
      exact ih h

theorem lookup_eraseName_self (es : FS) (n : String) :
    lookupChild (eraseName es n) n = none := by
  rw [lookupChild_eq_dget, dget_eq_none_iff]
  intro hmem
  rcases List.mem_map.mp hmem with ⟨p, hp, hpe⟩
  rcases List.mem_filter.mp hp with ⟨_, hpred⟩
  rw [hpe] at hpred
  simp at hpred

theorem keys_addIntoDir (es : FS) (cat n : String) (x : Node) :
    (addIntoDir es cat n x).map Prod.fst = es.map Prod.fst := by
  induction es with
  | nil => rfl
  | cons p rest ih =>
    show ((if p.1 = cat then (p.1, addChild p.2 n x) else p)).1 ::
        (addIntoDir rest cat n x).map Prod.fst = p.1 :: rest.map Prod.fst
    rw [ih]
    congr 1
    split <;> rfl

theorem mem_keys_eraseName {es : FS} {n m : String}
    (h : m ∈ (eraseName es n).map Prod.fst) :
    m ∈ es.map Prod.fst ∧ ¬ m = n := by
  rcases List.mem_map.mp h with ⟨p, hp, hpe⟩
  rcases List.mem_filter.mp hp with ⟨hmem, hpred⟩
  constructor
  · exact hpe ▸ List.mem_map.mpr ⟨p, hmem, rfl⟩
  · rw [← hpe]
    simpa using hpred

theorem mem_rootFiles_iff {es : FS} {f : String} :
    f ∈ rootFiles es ↔ (f, Node.file) ∈ es := by
  constructor
  · exact mem_rootFiles
  · intro h
    exact List.mem_filterMap.mpr ⟨(f, Node.file), h, rfl⟩

theorem mem_rootFiles_eraseName {es : FS} {n m : String}
    (h : m ∈ rootFiles (eraseName es n)) : m ∈ rootFiles es ∧ ¬ m = n := by
  have h1 := mem_rootFiles_iff.mp h
  rcases List.mem_filter.mp h1 with ⟨hmem, hpred⟩
  refine ⟨mem_rootFiles_iff.mpr hmem, ?_⟩
  simpa using hpred

theorem mem_rootFiles_addIntoDir {es : FS} {cat n m : String} {x : Node}
    (h : m ∈ rootFiles (addIntoDir es cat n x)) : m ∈ rootFiles es := by
  have h1 := mem_rootFiles_iff.mp h
  rcases List.mem_map.mp h1 with ⟨p, hp, hpe⟩
  apply mem_rootFiles_iff.mpr
  by_cases hc : p.1 = cat
  · rw [if_pos hc] at hpe
    injection hpe with h2 h3
    cases hnd : p.2 with
    | file =>
      have hpm : p = (m, Node.file) := by
        cases p
        simp_all
      exact hpm ▸ hp
    | dir cs =>
      rw [hnd] at h3
      simp [addChild] at h3
  · rw [if_neg hc] at hpe
    exact hpe ▸ hp

theorem rootFiles_append (es es2 : FS) :
    rootFiles (es ++ es2) = rootFiles es ++ rootFiles es2 := by
  simp [rootFiles, List.filterMap_append]

theorem rootFiles_sublist_keys (es : FS) : (rootFiles es).Sublist (es.map Prod.fst) := by
  induction es with
  | nil => exact List.Sublist.refl _
  | cons p rest ih =>
    cases p with
    | mk n nd =>
      cases nd with
      | file => exact List.Sublist.cons₂ n ih
      | dir cs => exact List.Sublist.cons n ih

theorem rootDirs_sublist_keys (es : FS) : (rootDirs es).Sublist (es.map Prod.fst) := by
  induction es with
  | nil => exact List.Sublist.refl _
  | cons p rest ih =>
    cases p with
    | mk n nd =>
      cases nd with
      | file => exact List.Sublist.cons n ih
      | dir cs => exact List.Sublist.cons₂ n ih

theorem mem_keys_file_or_dir {es : FS} {m : String} (h : m ∈ es.map Prod.fst) :
    m ∈ rootFiles es ∨ m ∈ rootDirs es := by
  rcases List.mem_map.mp h with ⟨p, hp, hpe⟩
  cases hnd : p.2 with
  | file =>
    left
    apply mem_rootFiles_iff.mpr
    have : p = (m, Node.file) := by
      cases p
      simp_all
    exact this ▸ hp
  | dir cs =>
    right
    apply List.mem_filterMap.mpr
    refine ⟨p, hp, ?_⟩
    rw [hnd, hpe]

theorem lookup_rootFile {es : FS} {n : String} (hnd : (es.map Prod.fst).Nodup)
    (h : n ∈ rootFiles es) : lookupChild es n = some Node.file :=
  dget_of_mem_nodup hnd (mem_rootFiles_iff.mp h)

theorem lookup_rootDir {es : FS} {n : String} (hnd : (es.map Prod.fst).Nodup)
    (h : n ∈ rootDirs es) : ∃ cs, lookupChild es n = some (Node.dir cs) := by
  obtain ⟨cs, hcs⟩ := mem_rootDirs h
  exact ⟨cs, dget_of_mem_nodup hnd hcs⟩

theorem rootFiles_rootDirs_disjoint {es : FS} (hnd : (es.map Prod.fst).Nodup)
    {n : String} (h1 : n ∈ rootFiles es) (h2 : n ∈ rootDirs es) : False := by
  obtain ⟨cs, hcs⟩ := lookup_rootDir hnd h2
  have hf := lookup_rootFile hnd h1
  rw [hf] at hcs
  injection hcs with h3
  cases h3

theorem pathExists_two_false {fs : FS} {a b : String} {cs : List (String × Node)}
    (h : lookupChild fs a = some (Node.dir cs)) (h2 : lookupChild cs b = none) :
    pathExists [a, b] fs = false := by
  simp only [pathExists, getNode_two, h, h2, Option.isSome]

theorem renameIntoCat_eq_ok {es : FS} {src cat : String} {nd : Node}
    {cs : List (String × Node)} (h1 : lookupChild es src = some nd)
    (h2 : lookupChild (eraseName es src) cat = some (Node.dir cs)) :
    renameIntoCat es src cat = Except.ok (addIntoDir (eraseName es src) cat src nd) := by
  unfold renameIntoCat
  rw [h1, h2]

theorem lookup_append_single_none {cs : FS} {n m : String} {x : Node}
    (h1 : lookupChild cs m = none) (h2 : ¬ m = n) :
    lookupChild (cs ++ [(n, x)]) m = none := by
  rw [lookupChild_eq_dget, dget_eq_none_iff, List.map_append]
  rw [lookupChild_eq_dget, dget_eq_none_iff] at h1
  simp only [List.mem_append, List.map_cons, List.map_nil, List.mem_singleton]
  intro hor
  rcases hor with hx | hx
  · exact h1 hx
  · exact h2 hx

theorem mem_keys_dSet_cases {α : Type} {m : List (String × α)} {k b : String} {v : α}
    (h : k ∈ (dSet m b v).map Prod.fst) : k ∈ m.map Prod.fst ∨ k = b := by
  by_cases hb : b ∈ m.map Prod.fst
  · rw [keys_dSet_of_mem v hb] at h
    exact Or.inl h
  · rw [dSet_of_not_mem v hb, List.map_append] at h
    rcases List.mem_append.mp h with h1 | h1
    · exact Or.inl h1
    · simp at h1
      exact Or.inr h1

theorem pyMaxBySnd_mem {l : List (String × Nat)} {m : String × Nat}
    (h : pyMaxBySnd l = some m) : m ∈ l := by
  cases l with
  | nil => cases h
  | cons x xs =>
    injection h with h2
    rw [← h2]
    rcases pyMax2_mem x xs with h3 | h3
    · rw [h3]
      exact List.mem_cons_self x xs
    · exact List.mem_cons_of_mem _ h3

theorem classifyStep_keys {emap : List (String × String)} {st : List (String × Nat) × Nat}
    {it : Item} {st1 : List (String × Nat) × Nat}
    (hs : classifyStep emap st it = Except.ok st1) :
    ∀ k ∈ st1.1.map Prod.fst,
      k ∈ st.1.map Prod.fst ∨ k = "Others" ∨ ∃ p ∈ emap, p.2 = k := by
  intro k hk
  simp only [classifyStep] at hs
  split at hs
  · split at hs
    · rename_i c hec
      split at hs
      · split at hs
        · rename_i n hn
          injection hs with h4
          rw [← h4] at hk
          rcases mem_keys_dSet_cases hk with h5 | h5
          · exact Or.inl h5
          · exact Or.inr (Or.inl h5)
        · cases hs
      · injection hs with h4
        rw [← h4] at hk
        rcases mem_keys_dSet_cases hk with h5 | h5
        · exact Or.inl h5
        · exact Or.inr (Or.inr ⟨(extKey it.name, c), dget_mem hec, h5.symm⟩)
    · rename_i hec
      split at hs
      · rename_i n hn
        injection hs with h4
        rw [← h4] at hk
        rcases mem_keys_dSet_cases hk with h5 | h5
        · exact Or.inl h5
        · exact Or.inr (Or.inl h5)
      · cases hs
  · injection hs with h4
    rw [← h4] at hk
    exact Or.inl hk

theorem classify_fold_keys {emap : List (String × String)} :
    ∀ (todo : List Item) (st st2 : List (String × Nat) × Nat),
      todo.foldlM (classifyStep emap) st = Except.ok st2 →
      ∀ k ∈ st2.1.map Prod.fst,
        k ∈ st.1.map Prod.fst ∨ k = "Others" ∨ ∃ p ∈ emap, p.2 = k := by
  intro todo
  induction todo with
  | nil =>
    intro st st2 h k hk
    have h2 : (Except.ok st : Except String (List (String × Nat) × Nat)) = Except.ok st2 := h
    injection h2 with h3
    rw [← h3] at hk
    exact Or.inl hk
  | cons it rest ih =>
    intro st st2 h k hk
    rw [List.foldlM_cons] at h
    cases hs : classifyStep emap st it with
    | error e =>
      rw [hs] at h
      have h2 : (Except.error e : Except String (List (String × Nat) × Nat)) =
          Except.ok st2 := h
      cases h2
    | ok st1 =>
      rw [hs] at h
      have h2 : rest.foldlM (classifyStep emap) st1 = Except.ok st2 := h
      rcases ih st1 st2 h2 k hk with h3 | h3
      · exact classifyStep_keys hs k h3
      · exact Or.inr h3

theorem classify_result_cases {items : List Item} {emap : List (String × String)}
    {cats : List String} {r : String}
    (h : classify_folder_by_content items emap cats = Except.ok r) :
    r = "Others" ∨ r ∈ cats ∨ ∃ p ∈ emap, p.2 = r := by
  cases hc : classifyCounts items emap cats with
  | error e =>
    unfold classify_folder_by_content at h
    rw [hc] at h
    have h2 : (Except.error e : Except String String) = Except.ok r := h
    cases h2
  | ok st =>
    rw [classify_eq_of_counts hc] at h
    by_cases ht : st.2 = 0
    · rw [if_pos ht] at h
      injection h with h2
      exact Or.inl h2.symm
    · rw [if_neg ht] at h
      cases hm : pyMaxBySnd st.1 with
      | none => rw [hm] at h; cases h
      | some mx =>
        rw [hm] at h
        have hif : (if 2 * mx.2 > st.2 then (Except.ok mx.1 : Except String String)
            else Except.ok "Others") = Except.ok r := h
        by_cases hmaj : 2 * mx.2 > st.2
        · rw [if_pos hmaj] at hif
          injection hif with h2
          have hkmem : mx.1 ∈ st.1.map Prod.fst :=
            List.mem_map.mpr ⟨mx, pyMaxBySnd_mem hm, rfl⟩
          have hkeysinit : (cats.map (fun c => (c, (0 : Nat)))).map Prod.fst = cats := by
            rw [List.map_map]
            exact List.map_id cats
          have h3 := classify_fold_keys items (cats.map (fun c => (c, 0)), 0) st hc
            mx.1 hkmem
          rw [hkeysinit] at h3
          rw [← h2]
          rcases h3 with h4 | h4
          · exact Or.inr (Or.inl h4)
          · rcases h4 with h4 | h4
            · exact Or.inl h4
            · exact Or.inr (Or.inr h4)
        · rw [if_neg hmaj] at hif
          injection hif with h2
          exact Or.inl h2.symm

theorem emap_inner_values :
    ∀ (exts : List String) (cat : String) (acc : List (String × String))
      (p : String × String),
      p ∈ exts.foldl (fun a e => (e, cat) :: a) acc → p.2 = cat ∨ p ∈ acc := by
  intro exts
  induction exts with
  | nil => intro cat acc p h; exact Or.inr h
  | cons e rest ih =>
    intro cat acc p h
    rw [List.foldl_cons] at h
    rcases ih cat ((e, cat) :: acc) p h with h1 | h1
    · exact Or.inl h1
    · rcases List.mem_cons.mp h1 with h2 | h2
      · exact Or.inl (by rw [h2])
      · exact Or.inr h2

theorem emap_foldl_values :
    ∀ (l : List (String × List String)) (acc : List (String × String))
      (p : String × String),
      p ∈ l.foldl (fun acc2 q => q.2.foldl (fun a e => (e, q.1) :: a) acc2) acc →
      p.2 ∈ l.map Prod.fst ∨ p ∈ acc := by
  intro l
  induction l with
  | nil => intro acc p h; exact Or.inr h
  | cons q rest ih =>
    intro acc p h
    rw [List.foldl_cons] at h
    rcases ih _ p h with h1 | h1
    · exact Or.inl (List.mem_cons_of_mem _ h1)
    · rcases emap_inner_values q.2 q.1 acc p h1 with h2 | h2
      · exact Or.inl (by rw [List.map_cons, h2]; exact List.mem_cons_self _ _)
      · exact Or.inr h2

theorem emap_values {fn : List (String × List String)} {p : String × String}
    (h : p ∈ map_extensions_to_folder fn) : p.2 ∈ fn.map Prod.fst := by
  rcases emap_foldl_values fn [] p h with h1 | h1
  · exact h1
  · cases h1

theorem determine_target_mem {fn rules : List (String × List String)} {n : String}
    (hO : "Others" ∈ fn.map Prod.fst) :
    determine_target_folder n rules (map_extensions_to_folder fn) "Others" ∈
      fn.map Prod.fst ++ rules.map Prod.fst := by
  induction rules with
  | nil =>
    show (dget (map_extensions_to_folder fn) (extKey n)).getD "Others" ∈ _
    cases hd : dget (map_extensions_to_folder fn) (extKey n) with
    | none =>
      simp only [Option.getD_none, List.map_nil, List.append_nil]
      exact hO
    | some c =>
      simp only [Option.getD_some, List.map_nil, List.append_nil]
      exact emap_values (dget_mem hd)
  | cons r rest ih =>
    rw [determine_cons]
    by_cases hm : ruleMatches n r = true
    · rw [if_pos hm]
      refine List.mem_append_right _ ?_
      rw [List.map_cons]
      exact List.mem_cons_self _ _
    · rw [if_neg hm]
      rcases List.mem_append.mp ih with h | h
      · exact List.mem_append_left _ h
      · refine List.mem_append_right _ ?_
        rw [List.map_cons]
        exact List.mem_cons_of_mem _ h

theorem mkdir_fold_clean :
    ∀ (L : List String) (fs : FS),
      (∀ n ∈ L, lookupChild fs n = none ∨ ∃ cs, lookupChild fs n = some (Node.dir cs)) →
      ∃ cd, L.foldlM mkdirRoot fs = Except.ok (fs ++ cd) ∧
        (∀ p ∈ cd, p.1 ∈ L ∧ p.2 = Node.dir [] ∧ lookupChild fs p.1 = none) ∧
        (∀ n ∈ L, ∃ cs, lookupChild (fs ++ cd) n = some (Node.dir cs)) ∧
        ((cd.map Prod.fst).Nodup) := by
  intro L
  induction L with
  | nil =>
    intro fs h
    refine ⟨[], ?_, ?_, ?_, List.nodup_nil⟩
    · rw [List.append_nil]
      rfl
    · intro p hp
      cases hp
    · intro k hk
      cases hk
  | cons n rest ih =>
    intro fs h
    rcases h n (List.mem_cons_self n rest) with hn | ⟨cs, hn⟩
    · have hm : mkdirRoot fs n = Except.ok (fs ++ [(n, Node.dir [])]) := by
        unfold mkdirRoot
        rw [hn]
      have hlook2 : lookupChild (fs ++ [(n, Node.dir [])]) n = some (Node.dir []) := by
        rw [lookupChild_eq_dget, dget_append_of_none hn, dget_cons]
        simp
      have hrest : ∀ k ∈ rest, lookupChild (fs ++ [(n, Node.dir [])]) k = none ∨
          ∃ cs2, lookupChild (fs ++ [(n, Node.dir [])]) k = some (Node.dir cs2) := by
        intro k hk
        by_cases hkn : k = n
        · right
          exact ⟨[], by rw [hkn]; exact hlook2⟩
        · rcases h k (List.mem_cons_of_mem _ hk) with h2 | ⟨cs2, h2⟩
          · left
            rw [lookupChild_eq_dget, dget_append_of_none h2, dget_cons,
              if_neg (fun he => hkn he.symm)]
            rfl
          · right
            exact ⟨cs2, dget_append_of_some h2⟩
      obtain ⟨cd, hfold, hcd, hall, hnodup⟩ := ih (fs ++ [(n, Node.dir [])]) hrest
      refine ⟨(n, Node.dir []) :: cd, ?_, ?_, ?_, ?_⟩
      · rw [List.foldlM_cons, hm]
        show rest.foldlM mkdirRoot (fs ++ [(n, Node.dir [])]) =
          Except.ok (fs ++ (n, Node.dir []) :: cd)
        rw [hfold]
        simp
      · intro p hp
        rcases List.mem_cons.mp hp with h1 | h1
        · subst h1
          exact ⟨List.mem_cons_self _ _, rfl, hn⟩
        · obtain ⟨hp1, hp2, hp3⟩ := hcd p h1
          refine ⟨List.mem_cons_of_mem _ hp1, hp2, ?_⟩
          rw [lookupChild_eq_dget, dget_eq_none_iff]
          intro hmem
          rw [lookupChild_eq_dget, dget_eq_none_iff] at hp3
          exact hp3 (by rw [List.map_append]; exact List.mem_append_left _ hmem)
      · intro k hk
        rcases List.mem_cons.mp hk with h1 | h1
        · subst h1
          refine ⟨[], ?_⟩
          rw [List.append_cons]
          exact dget_append_of_some hlook2
        · obtain ⟨cs2, hcs2⟩ := hall k h1
          refine ⟨cs2, ?_⟩
          rw [List.append_cons]
          exact hcs2
      · refine List.nodup_cons.mpr ⟨?_, hnodup⟩
        intro hmem
        rcases List.mem_map.mp hmem with ⟨p, hp, hpe⟩
        have h4 := (hcd p hp).2.2
        rw [hpe, hlook2] at h4
        cases h4
    · have hm := mkdirRoot_noop hn
      obtain ⟨cd, hfold, hcd, hall, hnodup⟩ := ih fs (fun k hk => h k (List.mem_cons_of_mem _ hk))
      refine ⟨cd, ?_, ?_, ?_, hnodup⟩
      · rw [List.foldlM_cons, hm]
        exact hfold
      · exact fun p hp => ⟨List.mem_cons_of_mem _ (hcd p hp).1, (hcd p hp).2.1, (hcd p hp).2.2⟩
      · intro k hk
        rcases List.mem_cons.mp hk with h1 | h1
        · subst h1
          exact ⟨cs, dget_append_of_some hn⟩
        · exact hall k h1

theorem moveFileStep_clean {fn rules : List (String × List String)}
    {fails : String → String → Bool} {fs : FS} {log : List LogEntry} {n : String}
    (hfails : ∀ a b, fails a b = false)
    (hO : "Others" ∈ fn.map Prod.fst)
    (hfile : lookupChild fs n = some Node.file)
    (hcat : ∀ t ∈ fn.map Prod.fst ++ rules.map Prod.fst, ∃ cs,
      lookupChild fs t = some (Node.dir cs) ∧ lookupChild cs n = none) :
    moveFileStep (map_extensions_to_folder fn) rules fails (fs, log) n =
      (addIntoDir (eraseName fs n) (determine_target_folder n rules
        (map_extensions_to_folder fn) "Others") n Node.file,
       log ++ [LogEntry.movedFile n (determine_target_folder n rules
        (map_extensions_to_folder fn) "Others")]) := by
  obtain ⟨csT, hT, hTn⟩ := hcat _ (determine_target_mem hO)
  have hne : ¬ (determine_target_folder n rules (map_extensions_to_folder fn) "Others") = n := by
    intro he
    rw [he, hfile] at hT
    simp at hT
  have hr := renameIntoCat_eq_ok hfile (by rw [lookup_eraseName_ne hne]; exact hT)
  have hpe := pathExists_two_false hT hTn
  simp only [moveFileStep, hpe, Bool.false_eq_true, if_false, hfails, hr]

theorem move_files_clean {fn rules : List (String × List String)}
    {fails : String → String → Bool} (hfails : ∀ a b, fails a b = false)
    (hO : "Others" ∈ fn.map Prod.fst) (pend : List String) :
    ∀ (todo : List String) (fs : FS) (log : List LogEntry),
      todo.Nodup →
      (∀ n ∈ todo, n ∉ pend) →
      (∀ n ∈ todo, lookupChild fs n = some Node.file) →
      (∀ t ∈ fn.map Prod.fst ++ rules.map Prod.fst, ∃ cs,
        lookupChild fs t = some (Node.dir cs) ∧
        (∀ n ∈ todo, lookupChild cs n = none) ∧ (∀ n ∈ pend, lookupChild cs n = none)) →
      (∀ m ∈ ((todo.foldl (moveFileStep (map_extensions_to_folder fn) rules fails)
          (fs, log)).1).map Prod.fst, m ∈ fs.map Prod.fst ∧ m ∉ todo) ∧
      (∀ m ∈ rootFiles (todo.foldl (moveFileStep (map_extensions_to_folder fn) rules fails)
          (fs, log)).1, m ∈ rootFiles fs ∧ m ∉ todo) ∧
      (∀ d cs0, lookupChild fs d = some (Node.dir cs0) →
        ∃ cs1, lookupChild (todo.foldl (moveFileStep (map_extensions_to_folder fn) rules
          fails) (fs, log)).1 d = some (Node.dir cs1)) ∧
      (∀ t ∈ fn.map Prod.fst ++ rules.map Prod.fst, ∃ cs,
        lookupChild (todo.foldl (moveFileStep (map_extensions_to_folder fn) rules fails)
          (fs, log)).1 t = some (Node.dir cs) ∧ (∀ n ∈ pend, lookupChild cs n = none)) := by
  intro todo
  induction todo with
  | nil =>
    intro fs log _ _ _ h3
    refine ⟨?_, ?_, ?_, ?_⟩
    · intro m hm
      exact ⟨hm, by simp⟩
    · intro m hm
      exact ⟨hm, by simp⟩
    · intro d cs0 hd
      exact ⟨cs0, hd⟩
    · intro t ht
      obtain ⟨cs, ha, _, hc⟩ := h3 t ht
      exact ⟨cs, ha, hc⟩
  | cons n rest ih =>
    intro fs log hnd hpend h1 h3
    have hfn : lookupChild fs n = some Node.file := h1 n (List.mem_cons_self n rest)
    have hstepcat : ∀ t ∈ fn.map Prod.fst ++ rules.map Prod.fst, ∃ cs,
        lookupChild fs t = some (Node.dir cs) ∧ lookupChild cs n = none := by
      intro t ht
      obtain ⟨cs, ha, hb, _⟩ := h3 t ht
      exact ⟨cs, ha, hb n (List.mem_cons_self n rest)⟩
    rw [List.foldl_cons, moveFileStep_clean hfails hO hfn hstepcat]
    have hnpend : n ∉ pend := hpend n (List.mem_cons_self n rest)
    have hndrest : n ∉ rest := (List.nodup_cons.mp hnd).1
    -- facts about the state after moving n
    have hfile1 : ∀ m ∈ rest, lookupChild (addIntoDir (eraseName fs n)
        (determine_target_folder n rules (map_extensions_to_folder fn) "Others") n
        Node.file) m = some Node.file := by
      intro m hm
      have hmn : ¬ m = n := fun he => hndrest (he ▸ hm)
      rw [lookup_addIntoDir, lookup_eraseName_ne hmn, h1 m (List.mem_cons_of_mem _ hm)]
      simp [addChild]
    have hcat1 : ∀ t ∈ fn.map Prod.fst ++ rules.map Prod.fst, ∃ cs,
        lookupChild (addIntoDir (eraseName fs n)
          (determine_target_folder n rules (map_extensions_to_folder fn) "Others") n
          Node.file) t = some (Node.dir cs) ∧
        (∀ m ∈ rest, lookupChild cs m = none) ∧
        (∀ m ∈ pend, lookupChild cs m = none) := by
      intro t ht
      obtain ⟨cs, ha, hb, hc⟩ := h3 t ht
      have htn : ¬ t = n := by
        intro he
        rw [he, hfn] at ha
        simp at ha
      rw [lookup_addIntoDir, lookup_eraseName_ne htn, ha]
      by_cases htT : t = determine_target_folder n rules (map_extensions_to_folder fn)
          "Others"
      · refine ⟨cs ++ [(n, Node.file)], ?_, ?_, ?_⟩
        · simp [htT, addChild]
        · intro m hm
          exact lookup_append_single_none (hb m (List.mem_cons_of_mem _ hm))
            (fun he => hndrest (he ▸ hm))
        · intro m hm
          exact lookup_append_single_none (hc m hm)
            (fun he => hnpend (he ▸ hm))
      · refine ⟨cs, ?_, fun m hm => hb m (List.mem_cons_of_mem _ hm), hc⟩
        simp [htT]
    obtain ⟨k2, k3, k4, k5⟩ := ih (addIntoDir (eraseName fs n)
        (determine_target_folder n rules (map_extensions_to_folder fn) "Others") n
        Node.file)
      (log ++ [LogEntry.movedFile n (determine_target_folder n rules
        (map_extensions_to_folder fn) "Others")])
      (List.nodup_cons.mp hnd).2
      (fun m hm => hpend m (List.mem_cons_of_mem _ hm)) hfile1 hcat1
    refine ⟨?_, ?_, ?_, k5⟩
    · intro m hm
      obtain ⟨hm1, hm2⟩ := k2 m hm
      rw [keys_addIntoDir] at hm1
      obtain ⟨hm3, hm4⟩ := mem_keys_eraseName hm1
      refine ⟨hm3, ?_⟩
      intro hmem
      rcases List.mem_cons.mp hmem with h5 | h5
      · exact hm4 h5
      · exact hm2 h5
    · intro m hm
      obtain ⟨hm1, hm2⟩ := k3 m hm
      have hm3 := mem_rootFiles_addIntoDir hm1
      obtain ⟨hm4, hm5⟩ := mem_rootFiles_eraseName hm3
      refine ⟨hm4, ?_⟩
      intro hmem
      rcases List.mem_cons.mp hmem with h5 | h5
      · exact hm5 h5
      · exact hm2 h5
    · intro d cs0 hd
      have hdn : ¬ d = n := by
        intro he
        rw [he, hfn] at hd
        simp at hd
      by_cases hdT : d = determine_target_folder n rules (map_extensions_to_folder fn)
          "Others"
      · refine k4 d (cs0 ++ [(n, Node.file)]) ?_
        rw [lookup_addIntoDir, lookup_eraseName_ne hdn, hd]
        simp [hdT, addChild]
      · refine k4 d cs0 ?_
        rw [lookup_addIntoDir, lookup_eraseName_ne hdn, hd]
        simp [hdT]

theorem moveFolderStep_clean_eq {rootName : String} {fn rules : List (String × List String)}
    {fails : String → String → Bool} {fs : FS} {log : List LogEntry} {X : String}
    (hfails : ∀ a b, fails a b = false)
    (hO : "Others" ∈ fn.map Prod.fst)
    (hXout : X ∉ fn.map Prod.fst ++ rules.map Prod.fst)
    (hroot : rootName ∉ fn.map Prod.fst ++ rules.map Prod.fst)
    (hX : ∃ csX, lookupChild fs X = some (Node.dir csX))
    (hcat : ∀ t ∈ fn.map Prod.fst ++ rules.map Prod.fst, ∃ cs,
      lookupChild fs t = some (Node.dir cs) ∧ lookupChild cs X = none) :
    ∃ cls csX, lookupChild fs X = some (Node.dir csX) ∧
      cls ∈ fn.map Prod.fst ++ rules.map Prod.fst ∧
      moveFolderStep rootName (combine_categories fn rules) (map_extensions_to_folder fn)
        fails (fs, log) X =
        Except.ok (addIntoDir (eraseName fs X) cls X (Node.dir csX),
          log ++ [LogEntry.movedFolder X cls]) := by
  obtain ⟨csX, hXl⟩ := hX
  have hchild : childItems fs X = some (csX.map (fun p =>
      ⟨p.1, match p.2 with | Node.file => true | Node.dir _ => false⟩)) := by
    unfold childItems
    rw [hXl]
  have hOcats : "Others" ∈ combine_categories fn rules := by
    rw [combine_categories, List.mem_dedup]
    exact List.mem_append_left _ hO
  obtain ⟨cls, hcls⟩ := classify_total_with_others
    (csX.map (fun p => ⟨p.1, match p.2 with | Node.file => true | Node.dir _ => false⟩))
    (map_extensions_to_folder fn) (combine_categories fn rules) hOcats
  have hclsmem : cls ∈ fn.map Prod.fst ++ rules.map Prod.fst := by
    rcases classify_result_cases hcls with h | h | ⟨p, hp, hpe⟩
    · rw [h]
      exact List.mem_append_left _ hO
    · rw [combine_categories, List.mem_dedup] at h
      exact h
    · rw [← hpe]
      exact List.mem_append_left _ (emap_values hp)
  have hXcats : X ∉ combine_categories fn rules := by
    rw [combine_categories, List.mem_dedup]
    exact hXout
  have hrootcls : rootName ≠ cls := fun he => hroot (he ▸ hclsmem)
  obtain ⟨csC, hC, hCX⟩ := hcat cls hclsmem
  have hclsX : ¬ cls = X := fun he => hXout (he ▸ hclsmem)
  have hr := renameIntoCat_eq_ok hXl (by rw [lookup_eraseName_ne hclsX]; exact hC)
  have hpe := pathExists_two_false hC hCX
  refine ⟨cls, csX, hXl, hclsmem, ?_⟩
  simp only [moveFolderStep, hXcats, if_false, hchild, hcls, mkdirRoot_noop hC, hpe,
    Bool.false_eq_true, hfails, hr]
  rw [if_pos hrootcls]

theorem move_folders_clean {rootName : String} {fn rules : List (String × List String)}
    {fails : String → String → Bool}
    (hfails : ∀ a b, fails a b = false)
    (hO : "Others" ∈ fn.map Prod.fst)
    (hroot : rootName ∉ fn.map Prod.fst ++ rules.map Prod.fst) :
    ∀ (todo : List String) (fs : FS) (log : List LogEntry),
      todo.Nodup →
      (∀ X ∈ todo, X ∉ fn.map Prod.fst ++ rules.map Prod.fst) →
      (∀ X ∈ todo, ∃ cs, lookupChild fs X = some (Node.dir cs)) →
      (∀ t ∈ fn.map Prod.fst ++ rules.map Prod.fst, ∃ cs,
        lookupChild fs t = some (Node.dir cs) ∧ (∀ X ∈ todo, lookupChild cs X = none)) →
      ∃ fs2 log2,
        todo.foldlM (moveFolderStep rootName (combine_categories fn rules)
          (map_extensions_to_folder fn) fails) (fs, log) = Except.ok (fs2, log2) ∧
        (∀ m ∈ fs2.map Prod.fst, m ∈ fs.map Prod.fst ∧ m ∉ todo) ∧
        (∀ m ∈ rootFiles fs2, m ∈ rootFiles fs) ∧
        (∀ t ∈ fn.map Prod.fst ++ rules.map Prod.fst, ∃ cs,
          lookupChild fs2 t = some (Node.dir cs)) := by
  intro todo
  induction todo with
  | nil =>
    intro fs log _ _ _ h4
    refine ⟨fs, log, rfl, ?_, ?_, ?_⟩
    · intro m hm
      exact ⟨hm, by simp⟩
    · intro m hm
      exact hm
    · intro t ht
      obtain ⟨cs, ha, _⟩ := h4 t ht
      exact ⟨cs, ha⟩
  | cons X rest ih =>
    intro fs log hnd hout h3 h4
    obtain ⟨cls, csX, hXl, hclsmem, hstep⟩ := @moveFolderStep_clean_eq rootName fn rules
      fails fs log X hfails hO (hout X (List.mem_cons_self X rest)) hroot
      (h3 X (List.mem_cons_self X rest))
      (fun t ht => by
        obtain ⟨cs, ha, hb⟩ := h4 t ht
        exact ⟨cs, ha, hb X (List.mem_cons_self X rest)⟩)
    have hXrest : X ∉ rest := (List.nodup_cons.mp hnd).1
    have hdirs1 : ∀ Y ∈ rest, ∃ cs, lookupChild (addIntoDir (eraseName fs X) cls X
        (Node.dir csX)) Y = some (Node.dir cs) := by
      intro Y hY
      have hYX : ¬ Y = X := fun he => hXrest (he ▸ hY)
      obtain ⟨cs, hcs⟩ := h3 Y (List.mem_cons_of_mem _ hY)
      rw [lookup_addIntoDir, lookup_eraseName_ne hYX, hcs]
      by_cases hYc : Y = cls
      · exact ⟨cs ++ [(X, Node.dir csX)], by simp [hYc, addChild]⟩
      · exact ⟨cs, by simp [hYc]⟩
    have hcat1 : ∀ t ∈ fn.map Prod.fst ++ rules.map Prod.fst, ∃ cs,
        lookupChild (addIntoDir (eraseName fs X) cls X (Node.dir csX)) t =
          some (Node.dir cs) ∧ (∀ Y ∈ rest, lookupChild cs Y = none) := by
      intro t ht
      obtain ⟨cs, ha, hb⟩ := h4 t ht
      have htX : ¬ t = X := fun he => (hout X (List.mem_cons_self X rest)) (he ▸ ht)
      rw [lookup_addIntoDir, lookup_eraseName_ne htX, ha]
      by_cases htc : t = cls
      · refine ⟨cs ++ [(X, Node.dir csX)], by simp [htc, addChild], ?_⟩
        intro Y hY
        exact lookup_append_single_none (hb Y (List.mem_cons_of_mem _ hY))
          (fun he => hXrest (he ▸ hY))
      · exact ⟨cs, by simp [htc], fun Y hY => hb Y (List.mem_cons_of_mem _ hY)⟩
    obtain ⟨fs2, log2, hfold, m2, m3, m5⟩ := ih
      (addIntoDir (eraseName fs X) cls X (Node.dir csX))
      (log ++ [LogEntry.movedFolder X cls])
      (List.nodup_cons.mp hnd).2
      (fun Y hY => hout Y (List.mem_cons_of_mem _ hY)) hdirs1 hcat1
    refine ⟨fs2, log2, ?_, ?_, ?_, m5⟩
    · rw [List.foldlM_cons, hstep]
      exact hfold
    · intro m hm
      obtain ⟨hm1, hm2⟩ := m2 m hm
      rw [keys_addIntoDir] at hm1
      obtain ⟨hm3, hm4⟩ := mem_keys_eraseName hm1
      refine ⟨hm3, ?_⟩
      intro hmem
      rcases List.mem_cons.mp hmem with h5 | h5
      · exact hm4 h5
      · exact hm2 h5
    · intro m hm
      have hm1 := m3 m hm
      have hm2 := mem_rootFiles_addIntoDir hm1
      exact (mem_rootFiles_eraseName hm2).1

theorem mkdir_fold_noop : ∀ (L : List String) (fs : FS),
    (∀ t ∈ L, ∃ cs, lookupChild fs t = some (Node.dir cs)) →
    L.foldlM mkdirRoot fs = Except.ok fs := by
  intro L
  induction L with
  | nil => intro fs _; rfl
  | cons t rest ih =>
    intro fs h
    obtain ⟨cs, hcs⟩ := h t (List.mem_cons_self t rest)
    rw [List.foldlM_cons, mkdirRoot_noop hcs]
    exact ih fs (fun k hk => h k (List.mem_cons_of_mem _ hk))

theorem move_folders_all_skip {rootName : String} {cats : List String}
    {emap : List (String × String)} {fails : String → String → Bool} :
    ∀ (todo : List String) (fs : FS) (log : List LogEntry),
      (∀ X ∈ todo, X ∈ cats) →
      todo.foldlM (moveFolderStep rootName cats emap fails) (fs, log) =
        Except.ok (fs, log ++ todo.map LogEntry.skipCategoryFolder) := by
  intro todo
  induction todo with
  | nil =>
    intro fs log _
    rw [List.map_nil, List.append_nil]
    rfl
  | cons X rest ih =>
    intro fs log h
    rw [List.foldlM_cons]
    have hstep : moveFolderStep rootName cats emap fails (fs, log) X =
        Except.ok (fs, log ++ [LogEntry.skipCategoryFolder X]) := by
      unfold moveFolderStep
      rw [if_pos (h X (List.mem_cons_self X rest))]
    rw [hstep]
    have h2 := ih fs (log ++ [LogEntry.skipCategoryFolder X])
      (fun Y hY => h Y (List.mem_cons_of_mem _ hY))
    show rest.foldlM (moveFolderStep rootName cats emap fails)
        (fs, log ++ [LogEntry.skipCategoryFolder X]) =
      Except.ok (fs, log ++ (X :: rest).map LogEntry.skipCategoryFolder)
    rw [h2]
    simp

theorem run_noop {rootName : String} {fn rules : List (String × List String)}
    {fails : String → String → Bool} (fs1 : FS)
    (P1 : rootFiles fs1 = [])
    (P2 : ∀ m ∈ fs1.map Prod.fst, m ∈ fn.map Prod.fst ++ rules.map Prod.fst)
    (P3 : ∀ t ∈ fn.map Prod.fst ++ rules.map Prod.fst, ∃ cs,
      lookupChild fs1 t = some (Node.dir cs)) :
    runSorter fs1 rootName fn rules fails =
      (fs1, (rootDirs fs1).map LogEntry.skipCategoryFolder ++ [LogEntry.organized]) := by
  have hcf : create_folders fs1 fn rules = Except.ok fs1 := mkdir_fold_noop _ fs1 P3
  have hdirs : ∀ X ∈ rootDirs fs1, X ∈ combine_categories fn rules := by
    intro X hX
    rw [combine_categories, List.mem_dedup]
    exact P2 X ((rootDirs_sublist_keys fs1).subset hX)
  have hmv : move_folders_based_on_content (rootDirs fs1) rootName fn rules
      (map_extensions_to_folder fn) fails fs1 =
      Except.ok (fs1, [] ++ (rootDirs fs1).map LogEntry.skipCategoryFolder) :=
    move_folders_all_skip (rootDirs fs1) fs1 [] hdirs
  have hmf : move_files (rootFiles fs1) (map_extensions_to_folder fn) rules fails fs1 =
      (fs1, []) := by
    rw [P1]
    rfl
  simp only [runSorter, get_files_and_folders, hcf, hmf, hmv]
  simp

/-- Claim C6 as amended: the run is idempotent on clean inputs.  For a
working directory with duplicate-free entry names, none of which is a
recognized category name, whose own name is not a category name, and a run
without injected move failures, running the orchestrator twice leaves the
filesystem of the first run untouched and the second run emits only
info-level, non-move log lines (the category-folder skips and the final
summary).  Unconditional idempotence fails: with a pre-existing collision
the second run repeats the warning and the colliding entry is not in its
final location. -/
theorem run_idempotent_clean (fs : FS) (rootName : String)
    (fn rules : List (String × List String)) (fails : String → String → Bool)
    (hfails : ∀ a b, fails a b = false)
    (hnd : (fs.map Prod.fst).Nodup)
    (hnames : ∀ m ∈ fs.map Prod.fst, m ∉ fn.map Prod.fst ++ rules.map Prod.fst)
    (hroot : rootName ∉ fn.map Prod.fst ++ rules.map Prod.fst)
    (hO : "Others" ∈ fn.map Prod.fst) :
    (runSorter (runSorter fs rootName fn rules fails).1 rootName fn rules fails).1 =
      (runSorter fs rootName fn rules fails).1 ∧
    (∀ e ∈ (runSorter (runSorter fs rootName fn rules fails).1 rootName fn rules fails).2,
      e.isInfo = true ∧ e.isMove = false) := by
  obtain ⟨cd, hfoldA, hcd, hallA, hcdnd⟩ := mkdir_fold_clean
    (fn.map Prod.fst ++ rules.map Prod.fst) fs
    (fun n hn => Or.inl ((dget_eq_none_iff fs n).mpr (fun hmem => hnames n hmem hn)))
  have hcf : create_folders fs fn rules = Except.ok (fs ++ cd) := hfoldA
  have hcatA : ∀ t ∈ fn.map Prod.fst ++ rules.map Prod.fst,
      lookupChild (fs ++ cd) t = some (Node.dir []) := by
    intro t ht
    have hnone : dget fs t = none :=
      (dget_eq_none_iff fs t).mpr (fun hmem => hnames t hmem ht)
    obtain ⟨cs, hcs⟩ := hallA t ht
    rw [lookupChild_eq_dget, dget_append_of_none hnone] at hcs ⊢
    have h6 := (hcd _ (dget_mem hcs)).2.1
    rw [hcs, show Node.dir cs = Node.dir [] from h6]
  obtain ⟨k2, k3, k4, k5⟩ := move_files_clean hfails hO (rootDirs fs) (rootFiles fs)
    (fs ++ cd) []
    (List.Nodup.sublist (rootFiles_sublist_keys fs) hnd)
    (fun n hn hd => rootFiles_rootDirs_disjoint hnd hn hd)
    (fun n hn => dget_append_of_some (lookup_rootFile hnd hn))
    (fun t ht => ⟨[], hcatA t ht, fun _ _ => rfl, fun _ _ => rfl⟩)
  obtain ⟨fs2, log2, hfoldC, m2, m3, m5⟩ := move_folders_clean hfails hO hroot
    (rootDirs fs)
    ((rootFiles fs).foldl (moveFileStep (map_extensions_to_folder fn) rules fails)
      (fs ++ cd, [])).1 []
    (List.Nodup.sublist (rootDirs_sublist_keys fs) hnd)
    (fun X hX => hnames X ((rootDirs_sublist_keys fs).subset hX))
    (fun X hX => by
      obtain ⟨cs, hcs⟩ := lookup_rootDir hnd hX
      exact k4 X cs (dget_append_of_some hcs))
    k5
  have hfoldC2 : move_folders_based_on_content (rootDirs fs) rootName fn rules
      (map_extensions_to_folder fn) fails
      ((rootFiles fs).foldl (moveFileStep (map_extensions_to_folder fn) rules fails)
        (fs ++ cd, [])).1 = Except.ok (fs2, log2) := hfoldC
  have hrun1 : runSorter fs rootName fn rules fails =
      (fs2, ((rootFiles fs).foldl (moveFileStep (map_extensions_to_folder fn) rules fails)
        (fs ++ cd, [])).2 ++ log2 ++ [LogEntry.organized]) := by
    simp only [runSorter, get_files_and_folders, move_files, hcf, hfoldC2]
  have P1 : rootFiles fs2 = [] := by
    apply List.eq_nil_iff_forall_not_mem.mpr
    intro m hm
    have hm1 := m3 m hm
    obtain ⟨hm2, hm3b⟩ := k3 m hm1
    rw [rootFiles_append] at hm2
    rcases List.mem_append.mp hm2 with h5 | h5
    · exact hm3b h5
    · have h6 := (hcd _ (mem_rootFiles_iff.mp h5)).2.1
      cases h6
  have P2 : ∀ m ∈ fs2.map Prod.fst, m ∈ fn.map Prod.fst ++ rules.map Prod.fst := by
    intro m hm
    obtain ⟨hm1, hm2⟩ := m2 m hm
    obtain ⟨hm3, hm4⟩ := k2 m hm1
    rw [List.map_append] at hm3
    rcases List.mem_append.mp hm3 with h5 | h5
    · rcases mem_keys_file_or_dir h5 with h6 | h6
      · exact absurd h6 hm4
      · exact absurd h6 hm2
    · rcases List.mem_map.mp h5 with ⟨p, hp, hpe⟩
      exact hpe ▸ (hcd p hp).1
  have hrun2 := @run_noop rootName fn rules fails fs2 P1 P2 m5
  have hfst : (runSorter fs rootName fn rules fails).1 = fs2 := by rw [hrun1]
  constructor
  · rw [hfst, hrun2]
  · intro e he
    rw [hfst, hrun2] at he
    rcases List.mem_append.mp he with h5 | h5
    · rcases List.mem_map.mp h5 with ⟨d, _, hd⟩
      rw [← hd]
      exact ⟨rfl, rfl⟩
    · rw [List.mem_singleton.mp h5]
      exact ⟨rfl, rfl⟩

theorem run_idempotent_clean_witness :
    (runSorter (runSorter [("song.mp3", Node.file), ("IMG_1.jpg", Node.file),
        ("stuff", Node.dir [("a.mp3", Node.file)])] "Downloads"
        [("Audio", ["mp3"]), ("Others", ["NONE"])] [("Photos", ["IMG_"])]
        (fun _ _ => false)).1 "Downloads"
        [("Audio", ["mp3"]), ("Others", ["NONE"])] [("Photos", ["IMG_"])]
        (fun _ _ => false)).1 =
      (runSorter [("song.mp3", Node.file), ("IMG_1.jpg", Node.file),
        ("stuff", Node.dir [("a.mp3", Node.file)])] "Downloads"
        [("Audio", ["mp3"]), ("Others", ["NONE"])] [("Photos", ["IMG_"])]
        (fun _ _ => false)).1 ∧
    ((runSorter (runSorter [("song.mp3", Node.file), ("IMG_1.jpg", Node.file),
        ("stuff", Node.dir [("a.mp3", Node.file)])] "Downloads"
        [("Audio", ["mp3"]), ("Others", ["NONE"])] [("Photos", ["IMG_"])]
        (fun _ _ => false)).1 "Downloads"
        [("Audio", ["mp3"]), ("Others", ["NONE"])] [("Photos", ["IMG_"])]
        (fun _ _ => false)).2.all (fun e => e.isInfo && !e.isMove)) = true := by
  constructor
  · exact (run_idempotent_clean [("song.mp3", Node.file), ("IMG_1.jpg", Node.file),
      ("stuff", Node.dir [("a.mp3", Node.file)])] "Downloads"
      [("Audio", ["mp3"]), ("Others", ["NONE"])] [("Photos", ["IMG_"])]
      (fun _ _ => false) (fun _ _ => rfl) (by decide) (by decide) (by decide) (by decide)).1
  · rfl

end FileSorter
